import Mathlib

/-!
TinyEngine, example 14 (Renderpool): verification development.

Shallow embedding of the render-pool demo driver (`examples/14_Renderpool/main.cpp`)
and of the shader-storage-buffer registry (`include/utility/shader.cpp`), followed by
the properties proved about them.

Conventions of the embedding:

* The arithmetic of the ordering comparator is binary32: `F32` holds NaN, the infinities
  and the finite values, and its operations round to nearest, ties to even. The camera
  position is only compared with `0` where the visibility groups and the sign vector are
  computed; there its components are exact rationals, which every finite binary32 value
  is.
* `std::unordered_set<int>` is a `Finset Int`; `std::unordered_map<std::string, GLuint>`
  is an association list with unique keys, kept in insertion order.
* Counted `for` loops are folds over the range of their counter.
* Calls into code that is not part of the embedded files (`rand`, `glGenBuffers`,
  `chunkmesh::greedypool`) are recorded as events or answered by an oracle argument.
-/

namespace TinyEngine

/-! ## Vectors and draw commands -/

/-- Three-component vector with exact components. -/
structure Vec3 where
  x : ℚ
  y : ℚ
  z : ℚ
deriving DecidableEq

/-- Component-wise difference in exact arithmetic. -/
def Vec3.sub (a b : Vec3) : Vec3 := ⟨a.x - b.x, a.y - b.y, a.z - b.z⟩

/-- Inner product in exact arithmetic. -/
def dotExact (a b : Vec3) : ℚ := a.x * b.x + a.y * b.y + a.z * b.z

/-! ## Binary32 arithmetic -/

/-- Number of binary digits of `n`, with `fuel` bounding the recursion. -/
def bitsAux : Nat → Nat → Nat
  | 0, _ => 0
  | fuel + 1, n => if n = 0 then 0 else bitsAux fuel (n / 2) + 1

/-- Number of binary digits of `n`: the least `k` with `n < 2 ^ k`. -/
def bits (n : Nat) : Nat := bitsAux n n

/-- A binary32 value (`float`): NaN, an infinity with its sign, or the finite value
`m * 2 ^ e`. The two zeros are not told apart; no operation used here depends on the
sign of a zero. -/
inductive F32 where
  | nan
  | inf (neg : Bool)
  | fin (m : Int) (e : Int)
deriving DecidableEq

/-- Rounding of `n / 2 ^ s` to the nearest integer, ties to even. -/
def F32.roundShift (n s : Nat) : Nat :=
  let q := n / 2 ^ s
  let r := n % 2 ^ s
  if 2 ^ s < 2 * r ∨ (2 ^ s = 2 * r ∧ q % 2 = 1) then q + 1 else q

/-- The binary32 value nearest to the exact value `m * 2 ^ e`, ties to even: 24
significant bits, least exponent -149 (gradual underflow), infinity from `2 ^ 128`. -/
def F32.round (m e : Int) : F32 :=
  if m = 0 then fin 0 0
  else
    let n := m.natAbs
    let E := max (e + bits n - 24) (-149)
    let q := if E ≤ e then n * 2 ^ (e - E).toNat else roundShift n (E - e).toNat
    if 104 < E ∨ (E = 104 ∧ 2 ^ 24 ≤ q) then inf (decide (m < 0))
    else if m < 0 then fin (-(q : Int)) E else fin q E

/-- Negation. -/
def F32.neg : F32 → F32
  | nan => nan
  | inf s => inf (!s)
  | fin m e => fin (-m) e

/-- Binary32 addition: the exact sum, rounded. -/
def F32.add : F32 → F32 → F32
  | nan, _ => nan
  | _, nan => nan
  | inf s, inf t => if s = t then inf s else nan
  | inf s, fin _ _ => inf s
  | fin _ _, inf t => inf t
  | fin m₁ e₁, fin m₂ e₂ =>
    round (m₁ * 2 ^ (e₁ - min e₁ e₂).toNat + m₂ * 2 ^ (e₂ - min e₁ e₂).toNat) (min e₁ e₂)

/-- Binary32 subtraction. -/
def F32.sub (x y : F32) : F32 := x.add y.neg

/-- Binary32 multiplication: the exact product, rounded. -/
def F32.mul : F32 → F32 → F32
  | nan, _ => nan
  | _, nan => nan
  | inf s, inf t => inf (xor s t)
  | inf s, fin m _ => if m = 0 then nan else inf (xor s (decide (m < 0)))
  | fin m _, inf t => if m = 0 then nan else inf (xor (decide (m < 0)) t)
  | fin m₁ e₁, fin m₂ e₂ => round (m₁ * m₂) (e₁ + e₂)

/-- The comparison `x < 0`; false on NaN. -/
def F32.ltZero : F32 → Bool
  | fin m _ => decide (m < 0)
  | inf s => s
  | nan => false

/-- The comparison `x > 0`; false on NaN. -/
def F32.gtZero : F32 → Bool
  | fin m _ => decide (0 < m)
  | inf s => !s
  | nan => false

/-- The value is a zero. -/
def F32.isZero : F32 → Bool
  | fin m _ => decide (m = 0)
  | _ => false

/-- The value is NaN. -/
def F32.isNaN : F32 → Bool
  | nan => true
  | _ => false

/-- The exact value of a finite binary32 value; nothing for NaN and the infinities. -/
def F32.toRat? : F32 → Option ℚ
  | fin m e => some (m * 2 ^ e)
  | _ => none

/-- The exact value of a finite binary32 value, and `0` for NaN and the infinities. -/
def F32.value (x : F32) : ℚ := x.toRat?.getD 0

/-- A finite value is a binary32 value when rounding leaves it where it is. -/
def F32.isFloat : F32 → Bool
  | fin m e =>
    match round m e with
    | fin m' e' => decide (m * 2 ^ (e - min e e').toNat = m' * 2 ^ (e' - min e e').toNat)
    | _ => false
  | _ => true

/-- Three-component vector (`glm::vec3`) with binary32 components. -/
structure FVec3 where
  x : F32
  y : F32
  z : F32
deriving DecidableEq

/-- Component-wise difference (`operator-` on `vec3`). -/
def FVec3.sub (a b : FVec3) : FVec3 := ⟨a.x.sub b.x, a.y.sub b.y, a.z.sub b.z⟩

/-- The exact values of the components. -/
def FVec3.exact (a : FVec3) : Vec3 := ⟨a.x.value, a.y.value, a.z.value⟩

/-- All components are binary32 values. -/
def FVec3.isFloat (a : FVec3) : Bool := a.x.isFloat && a.y.isFloat && a.z.isFloat

/-- Inner product (`glm::dot` on `vec3`): the three products, summed from the left, each
operation rounded to binary32 on its own (no fused multiply-add). -/
def dot (a b : FVec3) : F32 := ((a.x.mul b.x).add (a.y.mul b.y)).add (a.z.mul b.z)

/-- Modelled from the spec: the indirect draw command record `DAIC`, declared in
`renderpool.cpp`. The spec lists the four fields of the indirect-draw layout and the
host-side metadata `group`, `pos` and `baseVert`; `main.cpp` reads the last three. -/
structure DAIC where
  vertexCount : Nat
  instanceCount : Nat
  firstVertex : Nat
  baseInstance : Nat
  group : Int
  pos : FVec3
  baseVert : Nat
deriving DecidableEq

/-! ## The ordering comparator of `main.cpp` (lines 71-75 and 168-172) -/

/-- The lambda passed to `vertpool.order`; `cam` is `cam::pos`. -/
def orderCmp (cam : FVec3) (a b : DAIC) : Bool :=
  if (dot (b.pos.sub a.pos) cam).ltZero then true
  else if (dot (b.pos.sub a.pos) cam).gtZero then false
  else decide (a.baseVert < b.baseVert)

/-- The comparator as the specification reads it: the same expression with the
differences, products and sums taken in exact arithmetic on the values of the inputs. -/
def orderCmpExact (cam : FVec3) (a b : DAIC) : Bool :=
  if dotExact (b.pos.exact.sub a.pos.exact) cam.exact < 0 then true
  else if dotExact (b.pos.exact.sub a.pos.exact) cam.exact > 0 then false
  else decide (a.baseVert < b.baseVert)

/-- The binary32 evaluation of `dot(b.pos - a.pos, cam)` is finite and carries no
rounding error: it equals the exact inner product of the exact difference. -/
def ExactDot (cam : FVec3) (a b : DAIC) : Prop :=
  (dot (b.pos.sub a.pos) cam).toRat? =
    some (dotExact (b.pos.exact.sub a.pos.exact) cam.exact)

/-! ## The visibility groups of `main.cpp` (lines 60-69 and 108-117) -/

/-- The statements `groups.clear(); if(cam::pos.x < 0) groups.insert(0); ...`. -/
def buildGroups (pos : Vec3) : Finset Int :=
  let groups : Finset Int := ∅
  let groups := if pos.x < 0 then insert 0 groups else groups
  let groups := if pos.x > 0 then insert 1 groups else groups
  let groups := if pos.y < 0 then insert 2 groups else groups
  let groups := if pos.y > 0 then insert 3 groups else groups
  let groups := if pos.z < 0 then insert 4 groups else groups
  let groups := if pos.z > 0 then insert 5 groups else groups
  groups

/-- The lambda passed to `vertpool.mask`: `groups.contains(cmd.group)`. -/
def groupMask (groups : Finset Int) (cmd : DAIC) : Bool := decide (cmd.group ∈ groups)

/-- The sign vector stored in `oldpos` / `newpos` (lines 88-93 and 99-104). -/
def signVec (pos : Vec3) : Vec3 :=
  let v : Vec3 := ⟨if pos.x > 0 then 1 else -1, if pos.y > 0 then 1 else -1,
    if pos.z > 0 then 1 else -1⟩
  let v := if pos.x = 0 then { v with x := 0 } else v
  let v := if pos.y = 0 then { v with y := 0 } else v
  let v := if pos.z = 0 then { v with z := 0 } else v
  v

/-- The variables the event handler captures: `groups`, `oldpos`, `newpos`, and the
number of `vertpool.mask` calls the handler has issued. -/
structure HandlerState where
  groups : Finset Int
  oldpos : Vec3
  newpos : Vec3
  masks : Nat
deriving DecidableEq

/-- State after lines 60-93: `groups` and `oldpos` both computed from `cam::pos`;
`newpos` is declared without a value, so its content is an argument. -/
def handlerInit (campos newpos : Vec3) : HandlerState :=
  { groups := buildGroups campos, oldpos := signVec campos, newpos := newpos, masks := 0 }

/-- The body of `Tiny::event.handler` after `cam::handler()` has run (lines 97-123);
`moved` is `cam::moved` and `campos` the value of `cam::pos` at that moment. -/
def handler (moved : Bool) (campos : Vec3) (s : HandlerState) : HandlerState :=
  if moved then
    let s := { s with newpos := signVec campos }
    let s :=
      if ¬ (s.oldpos = s.newpos) then
        { s with groups := buildGroups campos, masks := s.masks + 1 }
      else s
    { s with oldpos := s.newpos }
  else s

/-! ## Command table masking (`Renderpool::mask`) -/

/-- Modelled from the spec: the command table of `renderpool.cpp`, one draw command per
live section, with the number of commands in its visible prefix (the draw count). -/
structure CommandTable where
  commands : List DAIC
  count : Nat

/-- The commands covered by the multi-draw call: the first `count` entries. -/
def CommandTable.visible (t : CommandTable) : List DAIC := t.commands.take t.count

/-- The commands behind the visible prefix. -/
def CommandTable.hidden (t : CommandTable) : List DAIC := t.commands.drop t.count

/-- Modelled from the spec: `Renderpool::mask` of `renderpool.cpp`, which is not among
the embedded files. The spec says it re-partitions the table so that all commands
satisfying the predicate occupy a contiguous prefix, whose length is the draw count. -/
def CommandTable.mask (p : DAIC → Bool) (t : CommandTable) : CommandTable :=
  { commands := t.commands.filter p ++ t.commands.filter (fun c => !p c)
    count := (t.commands.filter p).length }

/-! ## Sample data -/

/-- The binary32 value of a small integer. -/
def F32.ofInt (n : Int) : F32 := F32.fin n 0

/-- A vector with small integer components. -/
def FVec3.ofInts (x y z : Int) : FVec3 := ⟨F32.ofInt x, F32.ofInt y, F32.ofInt z⟩

/-- A sample camera vector with integer components. -/
def camEx : FVec3 := FVec3.ofInts 1 2 3

/-- A sample command with projection 3 onto `camEx`. -/
def cmdFar : DAIC := ⟨6, 1, 9, 0, 1, FVec3.ofInts 3 0 0, 9⟩

/-- A sample command with projection 2 onto `camEx`. -/
def cmdMid : DAIC := ⟨6, 1, 4, 0, 3, FVec3.ofInts 0 1 0, 4⟩

/-- A sample command with projection 0 onto `camEx`. -/
def cmdNear : DAIC := ⟨6, 1, 0, 0, 5, FVec3.ofInts 0 0 0, 0⟩

/-- A sample command with projection 0 onto `camEx` and base vertex 4. -/
def cmdTieA : DAIC := ⟨6, 1, 4, 0, 1, FVec3.ofInts 3 0 (-1), 4⟩

/-- A second sample command with projection 0 onto `camEx` and base vertex 4. -/
def cmdTieB : DAIC := ⟨6, 1, 4, 0, 3, FVec3.ofInts (-2) 1 0, 4⟩

/-- A third sample command with projection 0 onto `camEx` and base vertex 4. -/
def cmdTieC : DAIC := ⟨6, 1, 4, 0, 5, FVec3.ofInts 1 1 (-1), 4⟩

/-- A sample command with projection 0 onto `camEx` and base vertex 9. -/
def cmdTieD : DAIC := ⟨6, 1, 9, 0, 5, FVec3.ofInts (-1) (-1) 1, 9⟩

/-- A camera vector of length about 1, almost in the plane `x = 0`:
`(2 ^ -30, 11863283 * 2 ^ -24, 11863283 * 2 ^ -24)`. -/
def camSkew : FVec3 := ⟨.fin 1 (-30), .fin 11863283 (-24), .fin 11863283 (-24)⟩

/-- A command anchored at the chunk position (0, 0, 1), base vertex 0. -/
def cmdS : DAIC := ⟨6, 1, 0, 0, 0, FVec3.ofInts 0 0 1, 0⟩

/-- A command anchored at the chunk position (1, 1, 0), base vertex 0. -/
def cmdU : DAIC := ⟨6, 1, 0, 0, 0, FVec3.ofInts 1 1 0, 0⟩

/-- A camera vector with two components of the largest finite magnitude,
`(2 ^ 24 - 1) * 2 ^ 104`, of opposite sign. -/
def camHuge : FVec3 := ⟨.fin 16777215 104, .fin (-16777215) 104, .fin 1 0⟩

/-- A command anchored at (0, 0, 0), base vertex 0. -/
def cmdV : DAIC := ⟨6, 1, 0, 0, 0, FVec3.ofInts 0 0 0, 0⟩

/-- A command anchored at (2, 2, 1), base vertex 0. -/
def cmdW : DAIC := ⟨6, 1, 0, 0, 0, FVec3.ofInts 2 2 1, 0⟩

/-! ## The shader-storage-buffer registry of `shader.cpp` (lines 42-43 and 121-130) -/

/-- Contents of a `std::unordered_map<std::string, GLuint>`: key/value entries with
unique keys, listed in insertion order. -/
abbrev NameMap := List (String × Nat)

/-- The value stored under a key (`find`), if any. -/
def NameMap.find (m : NameMap) (name : String) : Option Nat := m.lookup name

/-- Number of entries (`size()`). -/
def NameMap.size (m : NameMap) : Nat := m.length

/-- The keys, in insertion order. -/
def NameMap.keys (m : NameMap) : List String := m.map Prod.fst

/-- Assignment through `operator[]`: overwrites the value of an existing key, otherwise
inserts the key. -/
def NameMap.assign (m : NameMap) (name : String) (v : Nat) : NameMap :=
  if (m.find name).isSome then m.map (fun e => if e.1 = name then (name, v) else e)
  else m ++ [(name, v)]

/-- The static maps `ShaderBase::ssbo` and `ShaderBase::sbpi`, with the number of
`glGenBuffers` calls made so far. Binding point indices are kept as natural numbers. -/
structure Registry where
  ssbo : NameMap
  sbpi : NameMap
  generated : Nat
deriving DecidableEq

/-- Both maps empty, as after static initialisation. -/
def Registry.empty : Registry := { ssbo := [], sbpi := [], generated := 0 }

/-- The function `ShaderBase::buffer(std::string name)`. The argument `gen` answers
`glGenBuffers`: `gen k` is the buffer object written by the `k`-th call. The calls of
`glBindBufferBase` do not touch the maps and are left out. -/
def ShaderBase.buffer (gen : Nat → Nat) (name : String) (r : Registry) : Registry :=
  if (r.ssbo.find name).isSome then r
  else
    let ssbo := r.ssbo.assign name (gen r.generated)
    let sbpi := r.sbpi.assign name (ssbo.size - 1)
    { ssbo := ssbo, sbpi := sbpi, generated := r.generated + 1 }

/-- The overload `ShaderBase::buffer(std::vector<std::string> names)`. -/
def ShaderBase.bufferList (gen : Nat → Nat) (names : List String) (r : Registry) : Registry :=
  names.foldl (fun r l => ShaderBase.buffer gen l r) r

/-- One call of either overload. -/
inductive BufferCall where
  | one (name : String)
  | many (names : List String)
deriving DecidableEq

/-- The names a call registers, in order. -/
def BufferCall.names : BufferCall → List String
  | .one name => [name]
  | .many names => names

/-- Effect of one call on the registry. -/
def BufferCall.run (gen : Nat → Nat) (r : Registry) : BufferCall → Registry
  | .one name => ShaderBase.buffer gen name r
  | .many names => ShaderBase.bufferList gen names r

/-- Effect of a sequence of calls, starting from the given registry. -/
def runCalls (gen : Nat → Nat) (r : Registry) (calls : List BufferCall) : Registry :=
  calls.foldl (BufferCall.run gen) r

/-- The distinct elements of a list in order of first occurrence. -/
def firstSeen : List String → List String
  | [] => []
  | x :: xs => x :: (firstSeen xs).filter (fun y => y ≠ x)

/-- The registry holds exactly the names `seen`, numbered in order. -/
def Registry.Numbered (r : Registry) (seen : List String) : Prop :=
  r.ssbo.keys = seen ∧ r.sbpi = List.zip seen (List.range seen.length)

/-! ## The driver loops of `main.cpp` (lines 27-58 and 139-178) -/

/-- The constant `N` of `main.cpp`, the section count given to the pool constructor. -/
def N : Nat := 5 * 5 * 5 * 6

/-- A counted loop `for(int i = lo; i < hi; i++) body`. -/
def forLoop {σ : Type} (lo hi : Nat) (body : Nat → σ → σ) (s : σ) : σ :=
  (List.range' lo (hi - lo)).foldl (fun s i => body i s) s

/-- A counted loop whose body may fail. -/
def forLoopM {σ : Type} (lo hi : Nat) (body : Nat → σ → Option σ) (s : σ) : Option σ :=
  (List.range' lo (hi - lo)).foldlM (fun s i => body i s) s

/-- The calls `main` makes on chunks and on the pool. A chunk of the vector `chunks` is
named by its index. -/
inductive Event where
  /-- Call `chunk.randomize()` on the local template chunk. -/
  | randomizeLocal
  /-- Call `chunks.push_back(chunk)`. -/
  | pushBack
  /-- Call `chunkmesh::greedypool(&chunks[c], &vertpool)`. -/
  | greedypool (c : Nat)
  /-- Call `chunks[c].randomize()`. -/
  | randomize (c : Nat)
  /-- Call `vertpool.unsection(chunks[c].faces[d])`. -/
  | unsection (c d : Nat)
  /-- Call `vertpool.mask(...)`. -/
  | mask
  /-- Call `vertpool.order(...)`. -/
  | order
  /-- Call `vertpool.update()`. -/
  | update
deriving DecidableEq

/-- The state of `main` the loops depend on: the positions of the chunks in `chunks`,
the number of `rand()` calls made, and the calls issued so far. -/
structure Main where
  chunks : List (Nat × Nat × Nat)
  rands : Nat
  log : List Event
deriving DecidableEq

/-- Records a call. -/
def Main.emit (e : Event) (s : Main) : Main := { s with log := s.log ++ [e] }

/-- State at line 43: no chunks, nothing called. -/
def Main.start : Main := { chunks := [], rands := 0, log := [] }

/-- The body of the innermost initialisation loop (lines 52-56). -/
def meshChunk (i j k : Nat) (s : Main) : Main :=
  let s := s.emit .randomizeLocal
  let s := { s with chunks := s.chunks ++ [(i, j, k)] }
  let s := s.emit .pushBack
  s.emit (.greedypool (s.chunks.length - 1))

/-- The timed initialisation block (lines 48-77). -/
def meshing (s : Main) : Main :=
  let s := forLoop 0 5 (fun i s => forLoop 0 5 (fun j s => forLoop 0 5 (fun k s =>
    meshChunk i j k s) s) s) s
  let s := s.emit .mask
  let s := s.emit .order
  s.emit .update

/-- One pass of the loop at lines 147-157; `rand n` is the value of the `n`-th call of
`rand()`. Fails when `chunks` is empty, where `rand() % chunks.size()` divides by zero. -/
def pick (rand : Nat → Nat) (s : Main) : Option Main :=
  if s.chunks.length = 0 then none
  else
    let r := rand s.rands % s.chunks.length
    let s := { s with rands := s.rands + 1 }
    let s := s.emit (.randomize r)
    let s := forLoop 0 6 (fun d s => s.emit (.unsection r d)) s
    some (s.emit (.greedypool r))

/-- The callback given to `Tiny::loop` (lines 139-178), run once per frame. -/
def frame (rand : Nat → Nat) (s : Main) : Option Main :=
  match forLoopM 0 50 (fun _ s => pick rand s) s with
  | none => none
  | some s =>
    let s := s.emit .mask
    some (s.emit .order)

/-- The given number of frames, one after the other. -/
def frames (rand : Nat → Nat) : Nat → Main → Option Main
  | 0, s => some s
  | n + 1, s =>
    match frame rand s with
    | none => none
    | some s => frames rand n s

/-- The program up to the end of the given number of frames. -/
def program (rand : Nat → Nat) (n : Nat) : Option Main :=
  frames rand n (meshing Main.start)

/-- The calls of one pick on chunk `r`: randomize, release of the six face sections,
remesh. -/
def pickCalls (r : Nat) : List Event :=
  [.randomize r, .unsection r 0, .unsection r 1, .unsection r 2, .unsection r 3,
    .unsection r 4, .unsection r 5, .greedypool r]

/-- The positions of the 125 chunks of the 5 x 5 x 5 grid, in the order of the
initialisation loops. -/
def initChunks : List (Nat × Nat × Nat) :=
  (List.range 125).map (fun c => (c / 25, c / 5 % 5, c % 5))

/-- The calls of the initialisation block: for each chunk a randomize of the template, a
push and a remesh of the chunk just pushed; then mask, order and update. -/
def initCalls : List Event :=
  (List.range 125).flatMap (fun c => [.randomizeLocal, .pushBack, .greedypool c]) ++
    [.mask, .order, .update]

/-- The calls of one frame whose first `rand()` call is call number `base`, with `n`
chunks in the vector. -/
def frameCalls (rand : Nat → Nat) (n base : Nat) : List Event :=
  (List.range 50).flatMap (fun i => pickCalls (rand (base + i) % n)) ++ [.mask, .order]

/-! ## Live sections of the pool under the calls of `main` -/

/-- The pool as the driver sees it: the number of chunks pushed so far, the identities
(chunk, face direction) of the live sections, and the number of remeshes so far. -/
structure Sections where
  chunks : Nat
  live : List (Nat × Nat)
  meshes : Nat
deriving DecidableEq

/-- Modelled from the spec: the effect of the calls on the set of live sections, for
`Renderpool::unsection` (`renderpool.cpp`) and `chunkmesh::greedypool` (`chunk.h`), which
are not among the embedded files. `unsection` removes the record of the section it is
given and is a no-op when there is none; a remesh adds one section for each face
direction listed by `created n`, where `n` counts the remeshes. -/
def Sections.apply (created : Nat → List Nat) (p : Sections) : Event → Sections
  | .pushBack => { p with chunks := p.chunks + 1 }
  | .unsection c d => { p with live := p.live.erase (c, d) }
  | .greedypool c =>
    { p with live := p.live ++ (created p.meshes).map (fun d => (c, d)), meshes := p.meshes + 1 }
  | _ => p

/-- The pool before the first call. -/
def Sections.start : Sections := { chunks := 0, live := [], meshes := 0 }

/-- The pool after a sequence of calls. -/
def Sections.after (created : Nat → List Nat) (calls : List Event) : Sections :=
  calls.foldl (Sections.apply created) Sections.start

/-- The property holds in the given state and after each further call. -/
def everyStep {σ ε : Type} (P : σ → Prop) (f : σ → ε → σ) : σ → List ε → Prop
  | s, [] => P s
  | s, e :: es => P s ∧ everyStep P f (f s e) es

/-- Live sections are pairwise distinct and belong to a face (0 to 5) of a chunk of the
vector, which has at most 125 chunks. -/
def Sections.Tidy (p : Sections) : Prop :=
  p.live.Nodup ∧ (∀ x ∈ p.live, x.1 < p.chunks ∧ x.2 < 6) ∧ p.chunks ≤ 125

/-- A remesh outcome in which every remesh creates a section for each of the six faces. -/
def allFaces : Nat → List Nat := fun _ => [0, 1, 2, 3, 4, 5]

/-! ## The section allocator of the render pool -/

/-- Modelled from the spec: an allocation record of the pool (`renderpool.cpp`), mapping
a section identity to `{offset, capacity, used}`: base vertex index, reserved vertex
slots, live vertex count. -/
structure Allocation where
  id : Nat
  offset : Nat
  capacity : Nat
  used : Nat
deriving DecidableEq

/-- Modelled from the spec: the allocator state of the pool (`renderpool.cpp`): the
allocation records of the live sections and the free list, an ordered list of free
ranges `(start, stop)` covering the slots `start ≤ i < stop`. -/
structure Pool where
  live : List Allocation
  free : List (Nat × Nat)
deriving DecidableEq

/-- Modelled from the spec: the empty pool over a buffer of `size` vertex slots
(`reserve` in `renderpool.cpp`): no records, one free range covering the buffer. -/
def Pool.empty (size : Nat) : Pool := { live := [], free := [(0, size)] }

/-- Modelled from the spec: first-fit search of the free list (`allocate` in
`renderpool.cpp`). Takes `need` slots from the start of the first free range that is at
least that large and returns the offset with the remaining free list, or nothing when no
free range is large enough. -/
def firstFit (need : Nat) : List (Nat × Nat) → Option (Nat × List (Nat × Nat))
  | [] => none
  | (s, e) :: rest =>
    if s + need ≤ e then
      some (s, if s + need < e then (s + need, e) :: rest else rest)
    else
      match firstFit need rest with
      | none => none
      | some (o, rest') => some (o, (s, e) :: rest')

/-- Modelled from the spec: return of a range to the ordered free list (`release` in
`renderpool.cpp`), coalescing it with the free ranges it touches. -/
def coalesce (o e' : Nat) : List (Nat × Nat) → List (Nat × Nat)
  | [] => [(o, e')]
  | (s, e) :: rest =>
    if e' < s then (o, e') :: (s, e) :: rest
    else if e < o then (s, e) :: coalesce o e' rest
    else coalesce (min o s) (max e' e) rest

/-- The record of a section, if it is live. -/
def Pool.record (p : Pool) (id : Nat) : Option Allocation := p.live.find? (fun a => a.id == id)

/-- Modelled from the spec: `release(sectionId)` / `unsection(sectionId)` of
`renderpool.cpp`: removes the record and returns its range to the free list; a no-op for
an id without a record. -/
def Pool.unsection (p : Pool) (id : Nat) : Pool :=
  match p.record id with
  | none => p
  | some a =>
    { p with live := p.live.filter (fun b => b.id != id)
             free := coalesce a.offset (a.offset + a.capacity) p.free }

/-- Modelled from the spec: allocation of a fresh record for `id` with `n` vertices by
first fit; nothing when no free range is large enough (`OutOfSpace`). The sizing rule
`sizing` gives the capacity reserved for a submission of `n` vertices; the spec sizes
it by the per-section quota. -/
def Pool.place (sizing : Nat → Nat) (p : Pool) (id n : Nat) : Option Pool :=
  match firstFit (sizing n) p.free with
  | none => none
  | some (o, free') =>
    some { p with live := p.live ++ [⟨id, o, sizing n, n⟩], free := free' }

/-- Modelled from the spec: `allocate(sectionId, vertexData)` / `update(sectionId,
vertices)` of `renderpool.cpp` for `n` vertices. A section without a record is placed by
first fit; a section whose record has room is overwritten in place; otherwise its range
is released and it is placed anew. The result is nothing on `OutOfSpace`. -/
def Pool.update (sizing : Nat → Nat) (p : Pool) (id n : Nat) : Option Pool :=
  match p.record id with
  | none => p.place sizing id n
  | some a =>
    if n ≤ a.capacity then
      some { p with
        live := p.live.map (fun b => if b.id = id then { b with used := n } else b) }
    else (p.unsection id).place sizing id n

/-- A call on the pool. -/
inductive PoolCall where
  | update (id n : Nat)
  | unsection (id : Nat)
deriving DecidableEq

/-- Modelled from the spec: effect of one call on the pool. On `OutOfSpace` the
submission is rejected and the pool is left as it was. -/
def Pool.call (sizing : Nat → Nat) (p : Pool) : PoolCall → Pool
  | .update id n => (p.update sizing id n).getD p
  | .unsection id => p.unsection id

/-- Effect of a sequence of calls. -/
def Pool.run (sizing : Nat → Nat) (p : Pool) (calls : List PoolCall) : Pool :=
  calls.foldl (Pool.call sizing) p

/-- The sizing rule of a pool with a per-section quota: the quota, or the vertex count
when that is larger. -/
def quotaRule (quota : Nat) : Nat → Nat := fun n => max quota n

/-- Slot `i` lies in the range of the allocation. -/
def Allocation.covers (a : Allocation) (i : Nat) : Prop := a.offset ≤ i ∧ i < a.offset + a.capacity

/-- Slot `i` lies in a range of the free list. -/
def freeCovers (free : List (Nat × Nat)) (i : Nat) : Prop := ∃ r ∈ free, r.1 ≤ i ∧ i < r.2

/-- Free ranges are well formed, ascending, and separated by at least one slot. -/
def FreeSorted (free : List (Nat × Nat)) : Prop :=
  (∀ r ∈ free, r.1 ≤ r.2) ∧ free.Pairwise (fun r₁ r₂ => r₁.2 < r₂.1)

/-- The allocator invariant: distinct ids, disjoint allocation ranges, free list sorted
with gaps, and no slot both allocated and free. -/
structure Pool.Sound (p : Pool) : Prop where
  ids : (p.live.map Allocation.id).Nodup
  disjoint : ∀ a ∈ p.live, ∀ b ∈ p.live, a.id ≠ b.id → ∀ i, ¬ (a.covers i ∧ b.covers i)
  free : FreeSorted p.free
  apart : ∀ a ∈ p.live, ∀ i, a.covers i → ¬ freeCovers p.free i

/-! ## Properties of binary32 arithmetic -/

theorem F32.neg_neg (x : F32) : x.neg.neg = x := by
  cases x <;> simp [F32.neg]

theorem F32.round_neg (m e : Int) : F32.round (-m) e = (F32.round m e).neg := by
  unfold F32.round
  by_cases hm : m = 0
  · simp [hm, F32.neg]
  · have h1 : -m ≠ 0 := by omega
    simp only [h1, hm, if_false, Int.natAbs_neg]
    rcases lt_or_gt_of_ne hm with h | h
    · have h2 : ¬ (-m < 0) := by omega
      split_ifs <;> simp [F32.neg, h, h2]
    · have h2 : -m < 0 := by omega
      have h3 : ¬ (m < 0) := by omega
      split_ifs <;> simp [F32.neg, h2, h3]

theorem F32.add_comm (x y : F32) : x.add y = y.add x := by
  cases x <;> cases y <;> simp only [F32.add]
  · rename_i s t
    cases s <;> cases t <;> simp
  · rename_i m₁ e₁ m₂ e₂
    rw [min_comm e₂ e₁, Int.add_comm]

theorem F32.neg_add (x y : F32) : (x.add y).neg = x.neg.add y.neg := by
  cases x with
  | nan => cases y <;> rfl
  | inf s =>
    cases y with
    | nan => rfl
    | inf t => cases s <;> cases t <;> rfl
    | fin m e => rfl
  | fin m₁ e₁ =>
    cases y with
    | nan => rfl
    | inf t => rfl
    | fin m₂ e₂ =>
      show (F32.round _ _).neg = F32.round _ _
      rw [← F32.round_neg]
      congr 1
      ring

theorem F32.neg_mul (x c : F32) : (x.mul c).neg = x.neg.mul c := by
  cases x with
  | nan => cases c <;> rfl
  | inf s =>
    cases c with
    | nan => rfl
    | inf t => cases s <;> cases t <;> rfl
    | fin m e =>
      by_cases hm : m = 0
      · simp [F32.mul, hm, F32.neg]
      · simp only [F32.mul, hm, if_false, F32.neg]
        cases s <;> simp
  | fin m₁ e₁ =>
    cases c with
    | nan => rfl
    | inf t =>
      by_cases hm : m₁ = 0
      · simp [F32.mul, hm, F32.neg]
      · have h1 : -m₁ ≠ 0 := by omega
        simp only [F32.mul, hm, h1, if_false, F32.neg]
        rcases lt_or_gt_of_ne hm with h | h
        · have h2 : ¬ (-m₁ < 0) := by omega
          cases t <;> simp [h, h2]
        · have h2 : -m₁ < 0 := by omega
          have h3 : ¬ (m₁ < 0) := by omega
          cases t <;> simp [h2, h3]
    | fin m₂ e₂ =>
      show (F32.round _ _).neg = F32.round _ _
      rw [← F32.round_neg]
      congr 1
      ring

theorem F32.sub_swap (x y : F32) : y.sub x = (x.sub y).neg := by
  rw [F32.sub, F32.sub, F32.neg_add, F32.neg_neg, F32.add_comm]

/-- Swapping the two records negates the binary32 dot product of their displacement. -/
theorem dot_sub_swap (a b cam : FVec3) : dot (a.sub b) cam = (dot (b.sub a) cam).neg := by
  simp only [dot, FVec3.sub]
  rw [F32.neg_add, F32.neg_add, F32.neg_mul, F32.neg_mul, F32.neg_mul,
    ← F32.sub_swap, ← F32.sub_swap, ← F32.sub_swap]

theorem F32.ltZero_neg (x : F32) : x.neg.ltZero = x.gtZero := by
  cases x <;> simp [F32.neg, F32.ltZero, F32.gtZero]

theorem F32.gtZero_neg (x : F32) : x.neg.gtZero = x.ltZero := by
  cases x <;> simp [F32.neg, F32.ltZero, F32.gtZero]

theorem F32.ltZero_gtZero (x : F32) (h : x.ltZero = true) : x.gtZero = false := by
  cases x with
  | nan => rfl
  | inf s => simpa [F32.ltZero, F32.gtZero] using h
  | fin m e =>
    simp only [F32.ltZero, F32.gtZero, decide_eq_true_eq, decide_eq_false_iff_not] at h ⊢
    omega

theorem F32.neither_iff (x : F32) :
    (x.ltZero = false ∧ x.gtZero = false) ↔ (x.isZero = true ∨ x.isNaN = true) := by
  cases x with
  | nan => simp [F32.ltZero, F32.gtZero, F32.isNaN]
  | inf s => cases s <;> simp [F32.ltZero, F32.gtZero, F32.isNaN, F32.isZero]
  | fin m e =>
    simp only [F32.ltZero, F32.gtZero, F32.isZero, F32.isNaN, decide_eq_true_eq,
      decide_eq_false_iff_not, Bool.false_eq_true, or_false]
    omega

theorem F32.zero_add (x y : F32) (hx : x = .fin 0 0 ∨ x = .nan) (hy : y = .fin 0 0 ∨ y = .nan) :
    x.add y = .fin 0 0 ∨ x.add y = .nan := by
  rcases hx with rfl | rfl <;> rcases hy with rfl | rfl <;> simp [F32.add, F32.round]

theorem dotExact_sub (a b c : Vec3) : dotExact (b.sub a) c = dotExact b c - dotExact a c := by
  simp only [dotExact, Vec3.sub]; ring

/-- In exact arithmetic the comparator is the lexicographic order on (projection onto
`cam` descending, `baseVert` ascending). -/
theorem orderCmpExact_iff (cam : FVec3) (a b : DAIC) :
    orderCmpExact cam a b = true ↔
      dotExact b.pos.exact cam.exact < dotExact a.pos.exact cam.exact ∨
        (dotExact b.pos.exact cam.exact = dotExact a.pos.exact cam.exact ∧
          a.baseVert < b.baseVert) := by
  unfold orderCmpExact
  rw [dotExact_sub]
  split_ifs with h1 h2
  · simp only [true_iff]; left; linarith
  · simp only [Bool.false_eq_true, false_iff, not_or, not_and, not_lt]
    constructor
    · linarith
    · intro h; linarith
  · have h : dotExact b.pos.exact cam.exact = dotExact a.pos.exact cam.exact := by linarith
    simp [h]

theorem orderCmpExact_false_iff (cam : FVec3) (a b : DAIC) :
    orderCmpExact cam a b = false ↔
      dotExact a.pos.exact cam.exact < dotExact b.pos.exact cam.exact ∨
        (dotExact b.pos.exact cam.exact = dotExact a.pos.exact cam.exact ∧
          b.baseVert ≤ a.baseVert) := by
  rw [← Bool.not_eq_true, orderCmpExact_iff]
  constructor
  · intro h
    rcases lt_trichotomy (dotExact a.pos.exact cam.exact) (dotExact b.pos.exact cam.exact)
      with h1 | h1 | h1
    · exact Or.inl h1
    · refine Or.inr ⟨h1.symm, ?_⟩
      by_contra h2
      exact h (Or.inr ⟨h1.symm, by omega⟩)
    · exact absurd (Or.inl h1) h
  · rintro (h | ⟨h1, h2⟩) (h3 | ⟨h3, h4⟩)
    · exact lt_asymm h h3
    · exact absurd h3.symm (ne_of_lt h)
    · exact absurd h1 (ne_of_lt h3)
    · omega

theorem orderCmpExact_incomparable_iff (cam : FVec3) (a b : DAIC) :
    (orderCmpExact cam a b = false ∧ orderCmpExact cam b a = false) ↔
      (dotExact a.pos.exact cam.exact = dotExact b.pos.exact cam.exact ∧
        a.baseVert = b.baseVert) := by
  simp only [orderCmpExact_false_iff]
  constructor
  · rintro ⟨h1 | ⟨h1, h2⟩, h3 | ⟨h3, h4⟩⟩
    · exact absurd h1 (lt_asymm h3)
    · exact absurd h3 (ne_of_lt h1)
    · exact absurd h1 (ne_of_lt h3)
    · exact ⟨h3, le_antisymm h4 h2⟩
  · rintro ⟨h1, h2⟩
    exact ⟨Or.inr ⟨h1.symm, le_of_eq h2.symm⟩, Or.inr ⟨h1, le_of_eq h2⟩⟩

/-! ## The comparator of the demo against its exact reading -/

/-- Where the binary32 dot product carries no rounding error, the comparator of the demo
returns what the exact comparator returns. -/
theorem orderCmp_eq_exact (cam : FVec3) (a b : DAIC) (h : ExactDot cam a b) :
    orderCmp cam a b = orderCmpExact cam a b := by
  unfold ExactDot at h
  unfold orderCmp orderCmpExact
  cases hd : dot (b.pos.sub a.pos) cam with
  | nan => simp [hd, F32.toRat?] at h
  | inf s => simp [hd, F32.toRat?] at h
  | fin m e =>
    rw [hd] at h
    simp only [F32.toRat?, Option.some.injEq] at h
    have hpos : (0 : ℚ) < 2 ^ e := zpow_pos (by norm_num) e
    have hlt : ((m : ℚ) * 2 ^ e < 0) ↔ m < 0 := by
      rw [mul_neg_iff]
      constructor
      · rintro (⟨_, h2⟩ | ⟨h1, _⟩)
        · exact absurd hpos (not_lt.2 (le_of_lt h2))
        · exact_mod_cast h1
      · intro h1
        exact Or.inr ⟨by exact_mod_cast h1, hpos⟩
    have hgt : (0 < (m : ℚ) * 2 ^ e) ↔ 0 < m := by
      rw [mul_pos_iff]
      constructor
      · rintro (⟨h1, _⟩ | ⟨_, h2⟩)
        · exact_mod_cast h1
        · exact absurd hpos (not_lt.2 (le_of_lt h2))
      · intro h1
        exact Or.inl ⟨by exact_mod_cast h1, hpos⟩
    rw [← h]
    simp only [F32.ltZero, F32.gtZero, gt_iff_lt, hlt, hgt, decide_eq_true_eq]

/-- Exactness of the dot product does not depend on the order of the two records. -/
theorem ExactDot.symm {cam : FVec3} {a b : DAIC} (h : ExactDot cam a b) : ExactDot cam b a := by
  unfold ExactDot at h ⊢
  rw [dot_sub_swap]
  cases hd : dot (b.pos.sub a.pos) cam with
  | nan => simp [hd, F32.toRat?] at h
  | inf s => simp [hd, F32.toRat?] at h
  | fin m e =>
    rw [hd] at h
    simp only [F32.toRat?, Option.some.injEq] at h
    simp only [F32.neg, F32.toRat?, Option.some.injEq]
    rw [dotExact_sub] at h ⊢
    push_cast
    linarith

/-- The comparator with its arguments swapped, in terms of the same dot product. -/
theorem orderCmp_swap (cam : FVec3) (a b : DAIC) :
    orderCmp cam b a =
      if (dot (b.pos.sub a.pos) cam).gtZero then true
      else if (dot (b.pos.sub a.pos) cam).ltZero then false
      else decide (b.baseVert < a.baseVert) := by
  simp only [orderCmp]
  rw [dot_sub_swap a.pos b.pos cam, F32.ltZero_neg, F32.gtZero_neg]

theorem exactDot_of_eq (cam : FVec3) (a b : DAIC) (m e : Int)
    (h : dot (b.pos.sub a.pos) cam = .fin m e)
    (hv : (m : ℚ) * 2 ^ e = dotExact (b.pos.exact.sub a.pos.exact) cam.exact) :
    ExactDot cam a b := by
  rw [ExactDot, h, F32.toRat?, hv]

/-- The sample commands under the comparator of the demo. -/
theorem sample_cmp :
    orderCmp camEx cmdFar cmdMid = true ∧ orderCmp camEx cmdMid cmdFar = false ∧
    orderCmp camEx cmdMid cmdNear = true ∧ orderCmp camEx cmdNear cmdMid = false ∧
    orderCmp camEx cmdTieA cmdTieB = false ∧ orderCmp camEx cmdTieB cmdTieA = false ∧
    orderCmp camEx cmdTieB cmdTieC = false ∧ orderCmp camEx cmdTieC cmdTieB = false := by
  decide

/-- The dot products of the sample commands carry no rounding error. -/
theorem sample_exact :
    ExactDot camEx cmdFar cmdMid ∧ ExactDot camEx cmdMid cmdNear ∧
    ExactDot camEx cmdFar cmdNear ∧ ExactDot camEx cmdTieA cmdTieB ∧
    ExactDot camEx cmdTieB cmdTieC ∧ ExactDot camEx cmdTieA cmdTieC ∧
    ExactDot camEx cmdTieA cmdTieD := by
  refine ⟨exactDot_of_eq _ _ _ (-8388608) (-23) (by decide) ?_,
    exactDot_of_eq _ _ _ (-8388608) (-22) (by decide) ?_,
    exactDot_of_eq _ _ _ (-12582912) (-22) (by decide) ?_,
    exactDot_of_eq _ _ _ 0 0 (by decide) ?_, exactDot_of_eq _ _ _ 0 0 (by decide) ?_,
    exactDot_of_eq _ _ _ 0 0 (by decide) ?_, exactDot_of_eq _ _ _ 0 0 (by decide) ?_⟩ <;>
  norm_num [dotExact, FVec3.exact, Vec3.sub, F32.value, F32.toRat?, camEx, cmdFar, cmdMid,
    cmdNear, cmdTieA, cmdTieB, cmdTieC, cmdTieD, FVec3.ofInts, F32.ofInt]

/-- C2, refuted as stated, twice. With the camera vector `camHuge` the products
overflow and the binary32 dot product is NaN: the comparator is false both ways between
two commands of equal base vertex although the dot product is not zero (its exact value
is 1). With the camera vector `camSkew` and the chunk positions (0, 0, 1), (1, 1, 0) the
binary32 dot product is rounded to zero: the comparator is false both ways although the
exact dot product is `2 ^ -30`. All inputs are binary32 values. -/
theorem orderCmp_tie_nonzero :
    (camHuge.isFloat = true ∧ cmdV.pos.isFloat = true ∧ cmdW.pos.isFloat = true ∧
      cmdV.baseVert = cmdW.baseVert ∧
      orderCmp camHuge cmdV cmdW = false ∧ orderCmp camHuge cmdW cmdV = false ∧
      dot (cmdW.pos.sub cmdV.pos) camHuge = .nan ∧
      dotExact (cmdW.pos.exact.sub cmdV.pos.exact) camHuge.exact = 1) ∧
    (camSkew.isFloat = true ∧ cmdS.pos.isFloat = true ∧ cmdU.pos.isFloat = true ∧
      cmdS.baseVert = cmdU.baseVert ∧
      orderCmp camSkew cmdS cmdU = false ∧ orderCmp camSkew cmdU cmdS = false ∧
      dot (cmdU.pos.sub cmdS.pos) camSkew = .fin 0 0 ∧
      dotExact (cmdU.pos.exact.sub cmdS.pos.exact) camSkew.exact = 1 / 2 ^ 30) := by
  refine ⟨⟨by decide, by decide, by decide, by decide, by decide, by decide, by decide, ?_⟩,
    by decide, by decide, by decide, by decide, by decide, by decide, by decide, ?_⟩
  · norm_num [dotExact, FVec3.exact, Vec3.sub, F32.value, F32.toRat?, camHuge, cmdV, cmdW,
      FVec3.ofInts, F32.ofInt]
  · norm_num [dotExact, FVec3.exact, Vec3.sub, F32.value, F32.toRat?, camSkew, cmdS, cmdU,
      FVec3.ofInts, F32.ofInt]

/-- C2 (amended): the comparator of the demo is false both ways only if the base
vertices are equal and the binary32 dot product of the displacement with the camera
vector is a zero or NaN; if moreover that dot product carries no rounding error, its
exact value is zero. Records with different base vertices are ordered exactly one way,
on all binary32 inputs; and when the binary32 dot product is a zero or NaN the result is
the comparison of base vertices. -/
theorem orderCmp_ties (cam : FVec3) (a b : DAIC) :
    (orderCmp cam a b = false ∧ orderCmp cam b a = false →
      ((dot (b.pos.sub a.pos) cam).isZero = true ∨ (dot (b.pos.sub a.pos) cam).isNaN = true) ∧
        a.baseVert = b.baseVert) ∧
    (ExactDot cam a b → orderCmp cam a b = false ∧ orderCmp cam b a = false →
      dotExact (b.pos.exact.sub a.pos.exact) cam.exact = 0 ∧ a.baseVert = b.baseVert) ∧
    (a.baseVert ≠ b.baseVert → (orderCmp cam a b = true ↔ orderCmp cam b a = false)) ∧
    ((dot (b.pos.sub a.pos) cam).isZero = true ∨ (dot (b.pos.sub a.pos) cam).isNaN = true →
      orderCmp cam a b = decide (a.baseVert < b.baseVert)) := by
  refine ⟨?_, ?_, ?_, ?_⟩
  · rw [orderCmp_swap cam a b, orderCmp]
    intro h
    cases hl : (dot (b.pos.sub a.pos) cam).ltZero
    · cases hg : (dot (b.pos.sub a.pos) cam).gtZero
      · simp only [hl, hg, Bool.false_eq_true, if_false, decide_eq_false_iff_not] at h
        exact ⟨(F32.neither_iff _).1 ⟨hl, hg⟩, by omega⟩
      · simp [hl, hg] at h
    · simp [hl] at h
  · intro hex h
    rw [orderCmp_eq_exact _ _ _ hex, orderCmp_eq_exact _ _ _ hex.symm] at h
    obtain ⟨h1, h2⟩ := (orderCmpExact_incomparable_iff cam a b).1 h
    rw [dotExact_sub]
    exact ⟨by linarith, h2⟩
  · intro hne
    rw [orderCmp_swap cam a b, orderCmp]
    cases hl : (dot (b.pos.sub a.pos) cam).ltZero
    · cases hg : (dot (b.pos.sub a.pos) cam).gtZero
      · simp only [Bool.false_eq_true, if_false, decide_eq_true_eq, decide_eq_false_iff_not]
        omega
      · simp
    · simp [F32.ltZero_gtZero _ hl]
  · intro h
    obtain ⟨hl, hg⟩ := (F32.neither_iff _).2 h
    simp [orderCmp, hl, hg]

/-- The binary32 dot product of the displacement between `cmdTieA` and `cmdTieD` is
zero. -/
theorem sample_tie : (dot (cmdTieD.pos.sub cmdTieA.pos) camEx).isZero = true := by
  decide

/-- C2 (amended), at two sample commands that tie on projection and differ in base
vertex (4 and 9): the base vertices decide, one way only. -/
theorem orderCmp_ties_witness :
    (dot (cmdTieD.pos.sub cmdTieA.pos) camEx).isZero = true ∧
    cmdTieA.baseVert ≠ cmdTieD.baseVert ∧
    orderCmp camEx cmdTieA cmdTieD = decide (cmdTieA.baseVert < cmdTieD.baseVert) ∧
    (orderCmp camEx cmdTieA cmdTieD = true ↔ orderCmp camEx cmdTieD cmdTieA = false) ∧
    (ExactDot camEx cmdTieA cmdTieB ∧
      (orderCmp camEx cmdTieA cmdTieB = false ∧ orderCmp camEx cmdTieB cmdTieA = false) ∧
      dotExact (cmdTieB.pos.exact.sub cmdTieA.pos.exact) camEx.exact = 0 ∧
      cmdTieA.baseVert = cmdTieB.baseVert) :=
  ⟨sample_tie, by decide, (orderCmp_ties camEx cmdTieA cmdTieD).2.2.2 (Or.inl sample_tie),
    (orderCmp_ties camEx cmdTieA cmdTieD).2.2.1 (by decide),
    sample_exact.2.2.2.1, ⟨sample_cmp.2.2.2.2.1, sample_cmp.2.2.2.2.2.1⟩,
    (orderCmp_ties camEx cmdTieA cmdTieB).2.1 sample_exact.2.2.2.1
      ⟨sample_cmp.2.2.2.2.1, sample_cmp.2.2.2.2.2.1⟩⟩

theorem mem_ite_insert (c : Prop) [Decidable c] (g x : Int) (s : Finset Int) :
    x ∈ (if c then insert g s else s) ↔ (x = g ∧ c) ∨ x ∈ s := by
  by_cases h : c <;> simp [h]

theorem mem_buildGroups (p : Vec3) (g : Int) :
    g ∈ buildGroups p ↔
      (g = 0 ∧ p.x < 0) ∨ (g = 1 ∧ p.x > 0) ∨ (g = 2 ∧ p.y < 0) ∨ (g = 3 ∧ p.y > 0) ∨
        (g = 4 ∧ p.z < 0) ∨ (g = 5 ∧ p.z > 0) := by
  unfold buildGroups
  simp only [mem_ite_insert, Finset.not_mem_empty, or_false]
  tauto

theorem buildGroups_card (p : Vec3) :
    (buildGroups p).card =
      (if p.x = 0 then 0 else 1) + (if p.y = 0 then 0 else 1) + (if p.z = 0 then 0 else 1) := by
  unfold buildGroups
  rcases lt_trichotomy p.x 0 with hx | hx | hx <;>
    rcases lt_trichotomy p.y 0 with hy | hy | hy <;>
    rcases lt_trichotomy p.z 0 with hz | hz | hz <;>
    simp [hx, hy, hz, not_lt_of_gt, ne_of_lt, ne_of_gt]

/-- C8: the group set built from a camera position contains, per axis, exactly the
group facing the camera: group 0 iff x < 0, 1 iff x > 0, 2 iff y < 0, 3 iff y > 0,
4 iff z < 0, 5 iff z > 0, and nothing else. It never holds both groups of an axis, holds
one for every non-zero coordinate, has as many elements as there are non-zero coordinates
(at most three), and is empty exactly at the origin. -/
theorem buildGroups_facing (p : Vec3) :
    (((0 : Int) ∈ buildGroups p ↔ p.x < 0) ∧ ((1 : Int) ∈ buildGroups p ↔ p.x > 0) ∧
      ((2 : Int) ∈ buildGroups p ↔ p.y < 0) ∧ ((3 : Int) ∈ buildGroups p ↔ p.y > 0) ∧
      ((4 : Int) ∈ buildGroups p ↔ p.z < 0) ∧ ((5 : Int) ∈ buildGroups p ↔ p.z > 0)) ∧
    (∀ g ∈ buildGroups p, g = 0 ∨ g = 1 ∨ g = 2 ∨ g = 3 ∨ g = 4 ∨ g = 5) ∧
    (¬ ((0 : Int) ∈ buildGroups p ∧ (1 : Int) ∈ buildGroups p) ∧
      ¬ ((2 : Int) ∈ buildGroups p ∧ (3 : Int) ∈ buildGroups p) ∧
      ¬ ((4 : Int) ∈ buildGroups p ∧ (5 : Int) ∈ buildGroups p)) ∧
    ((p.x ≠ 0 → (0 : Int) ∈ buildGroups p ∨ (1 : Int) ∈ buildGroups p) ∧
      (p.y ≠ 0 → (2 : Int) ∈ buildGroups p ∨ (3 : Int) ∈ buildGroups p) ∧
      (p.z ≠ 0 → (4 : Int) ∈ buildGroups p ∨ (5 : Int) ∈ buildGroups p)) ∧
    (buildGroups p).card =
      (if p.x = 0 then 0 else 1) + (if p.y = 0 then 0 else 1) + (if p.z = 0 then 0 else 1) ∧
    (buildGroups p).card ≤ 3 ∧
    (buildGroups p = ∅ ↔ p = ⟨0, 0, 0⟩) := by
  have m0 : (0 : Int) ∈ buildGroups p ↔ p.x < 0 := by rw [mem_buildGroups]; simp
  have m1 : (1 : Int) ∈ buildGroups p ↔ p.x > 0 := by rw [mem_buildGroups]; simp
  have m2 : (2 : Int) ∈ buildGroups p ↔ p.y < 0 := by rw [mem_buildGroups]; simp
  have m3 : (3 : Int) ∈ buildGroups p ↔ p.y > 0 := by rw [mem_buildGroups]; simp
  have m4 : (4 : Int) ∈ buildGroups p ↔ p.z < 0 := by rw [mem_buildGroups]; simp
  have m5 : (5 : Int) ∈ buildGroups p ↔ p.z > 0 := by rw [mem_buildGroups]; simp
  have hcard := buildGroups_card p
  refine ⟨⟨m0, m1, m2, m3, m4, m5⟩, ?_, ⟨?_, ?_, ?_⟩, ⟨?_, ?_, ?_⟩, hcard, ?_, ?_⟩
  · intro g hg
    rw [mem_buildGroups] at hg
    rcases hg with ⟨h, _⟩ | ⟨h, _⟩ | ⟨h, _⟩ | ⟨h, _⟩ | ⟨h, _⟩ | ⟨h, _⟩ <;> simp [h]
  · rw [m0, m1]; exact fun h => lt_asymm h.1 h.2
  · rw [m2, m3]; exact fun h => lt_asymm h.1 h.2
  · rw [m4, m5]; exact fun h => lt_asymm h.1 h.2
  · rw [m0, m1]; exact fun h => lt_or_gt_of_ne h
  · rw [m2, m3]; exact fun h => lt_or_gt_of_ne h
  · rw [m4, m5]; exact fun h => lt_or_gt_of_ne h
  · rw [hcard]; split_ifs <;> omega
  · constructor
    · intro h
      have hx : p.x = 0 := by
        by_contra hne
        rcases lt_or_gt_of_ne hne with h1 | h1
        · have := m0.2 h1; rw [h] at this; exact absurd this (Finset.not_mem_empty _)
        · have := m1.2 h1; rw [h] at this; exact absurd this (Finset.not_mem_empty _)
      have hy : p.y = 0 := by
        by_contra hne
        rcases lt_or_gt_of_ne hne with h1 | h1
        · have := m2.2 h1; rw [h] at this; exact absurd this (Finset.not_mem_empty _)
        · have := m3.2 h1; rw [h] at this; exact absurd this (Finset.not_mem_empty _)
      have hz : p.z = 0 := by
        by_contra hne
        rcases lt_or_gt_of_ne hne with h1 | h1
        · have := m4.2 h1; rw [h] at this; exact absurd this (Finset.not_mem_empty _)
        · have := m5.2 h1; rw [h] at this; exact absurd this (Finset.not_mem_empty _)
      cases p
      simp only [Vec3.mk.injEq]
      exact ⟨hx, hy, hz⟩
    · intro h
      rw [h]
      decide

/-- C8, at the camera position (1, -2, 0): the set is {1, 2}. -/
theorem buildGroups_facing_witness :
    buildGroups ⟨1, -2, 0⟩ = {1, 2} ∧ (buildGroups ⟨1, -2, 0⟩).card = 2 ∧
      (buildGroups ⟨0, 0, 0⟩ = ∅ ↔ (⟨0, 0, 0⟩ : Vec3) = ⟨0, 0, 0⟩) :=
  ⟨by decide, by decide, (buildGroups_facing ⟨0, 0, 0⟩).2.2.2.2.2.2⟩

theorem signVec_x (p : Vec3) :
    (signVec p).x = if p.x = 0 then 0 else if p.x > 0 then 1 else -1 := by
  unfold signVec
  by_cases hx : p.x = 0 <;> by_cases hy : p.y = 0 <;> by_cases hz : p.z = 0 <;>
    simp [hx, hy, hz]

theorem signVec_y (p : Vec3) :
    (signVec p).y = if p.y = 0 then 0 else if p.y > 0 then 1 else -1 := by
  unfold signVec
  by_cases hx : p.x = 0 <;> by_cases hy : p.y = 0 <;> by_cases hz : p.z = 0 <;>
    simp [hx, hy, hz]

theorem signVec_z (p : Vec3) :
    (signVec p).z = if p.z = 0 then 0 else if p.z > 0 then 1 else -1 := by
  unfold signVec
  by_cases hx : p.x = 0 <;> by_cases hy : p.y = 0 <;> by_cases hz : p.z = 0 <;>
    simp [hx, hy, hz]

/-- Equal sign codes mean equal signs. -/
theorem sign_code_eq (a b : ℚ)
    (h : (if a = 0 then (0 : ℚ) else if a > 0 then 1 else -1) =
      (if b = 0 then (0 : ℚ) else if b > 0 then 1 else -1)) :
    (a < 0 ↔ b < 0) ∧ (a > 0 ↔ b > 0) := by
  rcases lt_trichotomy a 0 with ha | ha | ha <;> rcases lt_trichotomy b 0 with hb | hb | hb <;>
    simp [ha, hb, not_lt_of_gt, ne_of_lt, ne_of_gt, lt_irrefl] at h ⊢

theorem buildGroups_of_signVec (p q : Vec3) (h : signVec p = signVec q) :
    buildGroups p = buildGroups q := by
  have hx := sign_code_eq p.x q.x (by rw [← signVec_x, ← signVec_x, h])
  have hy := sign_code_eq p.y q.y (by rw [← signVec_y, ← signVec_y, h])
  have hz := sign_code_eq p.z q.z (by rw [← signVec_z, ← signVec_z, h])
  ext g
  rw [mem_buildGroups, mem_buildGroups, hx.1, hx.2, hy.1, hy.2, hz.1, hz.2]

/-- C9: the group set is a function of the sign vector of the camera position, and the
event handler keeps `groups` and `oldpos` in step with the camera: if they are derived
from the camera position before a call with `cam::moved` set, they are derived from the
new camera position after it, whether the re-mask branch ran (sign vector changed) or
was skipped (sign vector unchanged). -/
theorem handler_keeps_groups (old new : Vec3) (s : HandlerState)
    (hg : s.groups = buildGroups old) (ho : s.oldpos = signVec old) :
    (∀ p q : Vec3, signVec p = signVec q → buildGroups p = buildGroups q) ∧
    (handler true new s).groups = buildGroups new ∧
    (handler true new s).oldpos = signVec new ∧
    (signVec old = signVec new → (handler true new s).masks = s.masks) ∧
    (signVec old ≠ signVec new → (handler true new s).masks = s.masks + 1) := by
  refine ⟨buildGroups_of_signVec, ?_, ?_, ?_, ?_⟩
  · by_cases h : signVec old = signVec new
    · simp [handler, ho, h, hg, buildGroups_of_signVec old new h]
    · simp [handler, ho, h]
  · by_cases h : signVec old = signVec new <;> simp [handler, ho, h]
  · intro h; simp [handler, ho, h]
  · intro h; simp [handler, ho, h]

/-- C9, at a move from (1, -2, 0) to (3, -1, 0), which keeps every sign: the re-mask is
skipped and the state still matches the new camera position. -/
theorem handler_keeps_groups_witness :
    (handler true ⟨3, -1, 0⟩ (handlerInit ⟨1, -2, 0⟩ ⟨7, 7, 7⟩)).groups = buildGroups ⟨3, -1, 0⟩ ∧
    (handler true ⟨3, -1, 0⟩ (handlerInit ⟨1, -2, 0⟩ ⟨7, 7, 7⟩)).oldpos = signVec ⟨3, -1, 0⟩ ∧
    (handler true ⟨3, -1, 0⟩ (handlerInit ⟨1, -2, 0⟩ ⟨7, 7, 7⟩)).masks = 0 :=
  have h := handler_keeps_groups ⟨1, -2, 0⟩ ⟨3, -1, 0⟩ (handlerInit ⟨1, -2, 0⟩ ⟨7, 7, 7⟩)
    (by rfl) (by rfl)
  ⟨h.2.1, h.2.2.1, h.2.2.2.1 (by norm_num [signVec])⟩

/-! ## Masking -/

theorem mask_visible (p : DAIC → Bool) (t : CommandTable) :
    (t.mask p).visible = t.commands.filter p := by
  simp [CommandTable.mask, CommandTable.visible]

theorem mask_hidden (p : DAIC → Bool) (t : CommandTable) :
    (t.mask p).hidden = t.commands.filter (fun c => !p c) := by
  simp [CommandTable.mask, CommandTable.hidden]

/-- C4: after `mask(p)` the visible prefix holds exactly the commands of the table that
satisfy `p` (each as often as the table holds it), no command behind the prefix
satisfies `p`, and the table is a permutation of the table before the call. With the
demo predicate the visible prefix is exactly the commands whose group is in `groups`. -/
theorem mask_correct (p : DAIC → Bool) (t : CommandTable) (groups : Finset Int) :
    (∀ c, c ∈ (t.mask p).visible ↔ c ∈ t.commands ∧ p c = true) ∧
    (∀ c, (t.mask p).visible.count c = if p c then t.commands.count c else 0) ∧
    (∀ c ∈ (t.mask p).hidden, p c = false) ∧
    ((t.mask p).visible ++ (t.mask p).hidden = (t.mask p).commands) ∧
    (t.mask p).commands.Perm t.commands ∧
    (∀ c, c ∈ (t.mask (groupMask groups)).visible ↔ c ∈ t.commands ∧ c.group ∈ groups) := by
  refine ⟨?_, ?_, ?_, ?_, ?_, ?_⟩
  · intro c
    rw [mask_visible, List.mem_filter]
  · intro c
    rw [mask_visible]
    by_cases h : p c = true
    · rw [if_pos h, List.count_filter h]
    · rw [if_neg h]
      exact List.count_eq_zero_of_not_mem (fun hm => h (List.mem_filter.1 hm).2)
  · intro c hc
    rw [mask_hidden, List.mem_filter] at hc
    simpa using hc.2
  · simp [CommandTable.visible, CommandTable.hidden]
  · exact List.filter_append_perm p t.commands
  · intro c
    rw [mask_visible, List.mem_filter]
    simp [groupMask]

/-! ## Properties of the buffer registry -/

theorem NameMap.find_isSome_iff (m : NameMap) (name : String) :
    (m.find name).isSome = true ↔ name ∈ m.keys := by
  induction m with
  | nil => simp [NameMap.find, NameMap.keys]
  | cons e m ih =>
    obtain ⟨k, v⟩ := e
    simp only [NameMap.find, NameMap.keys, List.map_cons, List.mem_cons] at ih ⊢
    by_cases h : name = k
    · subst h; simp [List.lookup_cons]
    · have h2 : (name == k) = false := by simpa using h
      rw [List.lookup_cons, h2]
      simp [h, ih]

theorem NameMap.find_mem (m : NameMap) (name : String) (v : Nat)
    (h : m.find name = some v) : (name, v) ∈ m := by
  induction m with
  | nil => simp [NameMap.find] at h
  | cons e m ih =>
    obtain ⟨k, w⟩ := e
    simp only [NameMap.find] at ih h
    by_cases hk : name = k
    · subst hk
      simp [List.lookup_cons] at h
      simp [h]
    · have h2 : (name == k) = false := by simpa using hk
      rw [List.lookup_cons, h2] at h
      exact List.mem_cons_of_mem _ (ih h)

theorem NameMap.assign_new (m : NameMap) (name : String) (v : Nat) (h : name ∉ m.keys) :
    m.assign name v = m ++ [(name, v)] := by
  have h2 : ¬ (m.find name).isSome = true := fun hs => h ((NameMap.find_isSome_iff m name).1 hs)
  simp [NameMap.assign, h2]

theorem Registry.Numbered.sbpi_keys {r : Registry} {seen : List String}
    (h : r.Numbered seen) : r.sbpi.keys = seen := by
  rw [NameMap.keys, h.2, ← List.unzip_fst, List.unzip_zip]
  · simp

theorem buffer_old (gen : Nat → Nat) (name : String) (r : Registry) (h : name ∈ r.ssbo.keys) :
    ShaderBase.buffer gen name r = r := by
  simp [ShaderBase.buffer, (NameMap.find_isSome_iff r.ssbo name).2 h]

theorem buffer_new (gen : Nat → Nat) (name : String) (r : Registry) (seen : List String)
    (hr : r.Numbered seen) (h : name ∉ seen) :
    (ShaderBase.buffer gen name r).Numbered (seen ++ [name]) := by
  have h1 : name ∉ r.ssbo.keys := by rw [hr.1]; exact h
  have h2 : name ∉ r.sbpi.keys := by rw [hr.sbpi_keys]; exact h
  have h3 : ¬ (r.ssbo.find name).isSome = true :=
    fun hs => h1 ((NameMap.find_isSome_iff _ _).1 hs)
  have hlen : r.ssbo.length = seen.length := by
    have := congrArg List.length hr.1
    simpa [NameMap.keys] using this
  simp only [ShaderBase.buffer, h3, if_false, Bool.false_eq_true]
  rw [NameMap.assign_new _ _ _ h1, NameMap.assign_new _ _ _ h2]
  refine ⟨by simp [NameMap.keys, ← hr.1], ?_⟩
  simp only [NameMap.size, List.length_append, List.length_singleton, Nat.add_sub_cancel, hlen]
  rw [hr.2, List.range_succ, List.zip_append (by simp)]
  simp

theorem firstSeen_filter_filter (xs seen : List String) (x : String) :
    ((firstSeen xs).filter (fun y => y ≠ x)).filter (fun y => y ∉ seen) =
      (firstSeen xs).filter (fun y => y ∉ seen ++ [x]) := by
  rw [List.filter_filter]
  congr 1
  funext y
  simp [not_or, Bool.and_comm]

theorem bufferList_numbered (gen : Nat → Nat) (names : List String) :
    ∀ (r : Registry) (seen : List String), r.Numbered seen →
      (ShaderBase.bufferList gen names r).Numbered
        (seen ++ (firstSeen names).filter (fun y => y ∉ seen)) := by
  induction names with
  | nil => intro r seen hr; simpa [ShaderBase.bufferList, firstSeen] using hr
  | cons x xs ih =>
    intro r seen hr
    simp only [ShaderBase.bufferList, List.foldl_cons] at ih ⊢
    by_cases hx : x ∈ seen
    · rw [buffer_old gen x r (by rw [hr.1]; exact hx)]
      have := ih r seen hr
      have e : (firstSeen (x :: xs)).filter (fun y => y ∉ seen) =
          (firstSeen xs).filter (fun y => y ∉ seen) := by
        simp only [firstSeen, List.filter_cons, hx, not_true_eq_false, decide_False,
          Bool.false_eq_true, if_false, List.filter_filter]
        congr 1
        funext y
        by_cases hy : y ∈ seen
        · simp [hy]
        · have : y ≠ x := fun e => hy (e ▸ hx)
          simp [hy, this]
      rw [e]
      exact this
    · have := ih _ _ (buffer_new gen x r seen hr hx)
      have e : seen ++ (firstSeen (x :: xs)).filter (fun y => y ∉ seen) =
          (seen ++ [x]) ++ (firstSeen xs).filter (fun y => y ∉ seen ++ [x]) := by
        simp only [firstSeen, List.filter_cons, hx, not_false_eq_true, decide_True, if_true]
        rw [firstSeen_filter_filter xs seen x]
        simp
      rw [e]
      exact this

theorem runCalls_eq_bufferList (gen : Nat → Nat) (calls : List BufferCall) :
    ∀ r : Registry, runCalls gen r calls =
      ShaderBase.bufferList gen (calls.flatMap BufferCall.names) r := by
  induction calls with
  | nil => intro r; rfl
  | cons c cs ih =>
    intro r
    simp only [runCalls, List.foldl_cons, List.flatMap_cons] at ih ⊢
    rw [ih]
    cases c <;> simp [BufferCall.run, BufferCall.names, ShaderBase.bufferList, List.foldl_append]

theorem firstSeen_subset (xs : List String) : ∀ y, y ∈ firstSeen xs ↔ y ∈ xs := by
  induction xs with
  | nil => simp [firstSeen]
  | cons x xs ih =>
    intro y
    simp only [firstSeen, List.mem_cons, List.mem_filter, ih]
    by_cases h : y = x <;> simp [h]

theorem firstSeen_nodup (xs : List String) : (firstSeen xs).Nodup := by
  induction xs with
  | nil => simp [firstSeen]
  | cons x xs ih =>
    simp only [firstSeen, List.nodup_cons, List.mem_filter]
    exact ⟨by simp, ih.filter _⟩

theorem mem_zip_range' (l : List String) :
    ∀ (s : Nat) (n : String) (i : Nat), (n, i) ∈ List.zip l (List.range' s l.length) →
      s ≤ i ∧ i < s + l.length ∧ l[i - s]? = some n := by
  induction l with
  | nil => intro s n i h; simp at h
  | cons x xs ih =>
    intro s n i h
    simp only [List.length_cons, List.range'_succ, List.zip_cons_cons, List.mem_cons,
      Prod.mk.injEq] at h
    rcases h with ⟨h1, h2⟩ | h
    · subst h1 h2; simp
    · obtain ⟨h1, h2, h3⟩ := ih (s + 1) n i h
      refine ⟨by omega, by simp only [List.length_cons]; omega, ?_⟩
      have e : i - s = (i - (s + 1)) + 1 := by omega
      rw [e, List.getElem?_cons_succ]
      exact h3

theorem zip_range_lookup (l : List String) (hl : l.Nodup) :
    ∀ (s k : Nat) (h : k < l.length),
      List.lookup (l.get ⟨k, h⟩) (List.zip l (List.range' s l.length)) = some (s + k) := by
  induction l with
  | nil => intro s k h; simp at h
  | cons x xs ih =>
    intro s k h
    rw [List.nodup_cons] at hl
    simp only [List.length_cons, List.range'_succ, List.zip_cons_cons]
    cases k with
    | zero => simp [List.lookup_cons]
    | succ k =>
      have hk : k < xs.length := by simpa using h
      have hne : (xs.get ⟨k, hk⟩ == x) = false := by
        have : xs.get ⟨k, hk⟩ ≠ x := fun e => hl.1 (e ▸ List.get_mem xs k hk)
        simpa using this
      have hget : (x :: xs).get ⟨k + 1, h⟩ = xs.get ⟨k, hk⟩ := rfl
      rw [hget, List.lookup_cons, hne, ih hl.2 (s + 1) k hk, Nat.add_assoc, Nat.add_comm 1 k]

/-- C10: starting from empty maps, after any sequence of `buffer` calls of either
overload the two maps have the same keys, namely the distinct names in order of first
registration; the `k`-th of them (from 0) has binding point index `k`; indices of
distinct names differ and are below the number of registered names; and `buffer` on a
registered name changes nothing: no buffer is generated and no index changes. -/
theorem buffer_assigns_indices (gen : Nat → Nat) (calls : List BufferCall) :
    (runCalls gen Registry.empty calls).ssbo.keys = firstSeen (calls.flatMap BufferCall.names) ∧
    (runCalls gen Registry.empty calls).sbpi.keys = firstSeen (calls.flatMap BufferCall.names) ∧
    (firstSeen (calls.flatMap BufferCall.names)).Nodup ∧
    (∀ (k : Nat) (h : k < (firstSeen (calls.flatMap BufferCall.names)).length),
      (runCalls gen Registry.empty calls).sbpi.find
        ((firstSeen (calls.flatMap BufferCall.names)).get ⟨k, h⟩) = some k) ∧
    (∀ (n : String) (i : Nat), (runCalls gen Registry.empty calls).sbpi.find n = some i →
      i < (runCalls gen Registry.empty calls).sbpi.size) ∧
    (∀ (n m : String) (i : Nat), (runCalls gen Registry.empty calls).sbpi.find n = some i →
      (runCalls gen Registry.empty calls).sbpi.find m = some i → n = m) ∧
    (∀ name ∈ (runCalls gen Registry.empty calls).ssbo.keys,
      ShaderBase.buffer gen name (runCalls gen Registry.empty calls) =
        runCalls gen Registry.empty calls) := by
  have h0 : Registry.empty.Numbered [] := ⟨rfl, rfl⟩
  have hN := bufferList_numbered gen (calls.flatMap BufferCall.names) Registry.empty [] h0
  rw [← runCalls_eq_bufferList] at hN
  simp only [List.nil_append, List.not_mem_nil, not_false_eq_true, decide_True,
    List.filter_true] at hN
  have hz := hN.2
  rw [List.range_eq_range'] at hz
  refine ⟨hN.1, hN.sbpi_keys, firstSeen_nodup _, ?_, ?_, ?_, ?_⟩
  · intro k h
    rw [NameMap.find, hz, zip_range_lookup _ (firstSeen_nodup _) 0 k h, Nat.zero_add]
  · intro n i hf
    have hm := NameMap.find_mem _ _ _ hf
    have hlen : (runCalls gen Registry.empty calls).sbpi.size =
        (firstSeen (calls.flatMap BufferCall.names)).length := by
      have := congrArg List.length hN.sbpi_keys
      simpa [NameMap.keys, NameMap.size] using this
    rw [hz] at hm
    have := mem_zip_range' _ 0 n i hm
    omega
  · intro n m i hn hm
    have h1 := NameMap.find_mem _ _ _ hn
    have h2 := NameMap.find_mem _ _ _ hm
    rw [hz] at h1 h2
    have e1 := (mem_zip_range' _ 0 n i h1).2.2
    have e2 := (mem_zip_range' _ 0 m i h2).2.2
    rw [e1] at e2
    exact Option.some.inj e2
  · intro name h
    exact buffer_old gen name _ h

/-- C10, on the calls `buffer("a")`, `buffer({"b", "a", "c"})`, `buffer("b")`: three
names are registered, in the order a, b, c, with indices 0, 1, 2. -/
theorem buffer_assigns_indices_witness :
    (runCalls (fun k => 100 + k) Registry.empty
      [.one "a", .many ["b", "a", "c"], .one "b"]).sbpi = [("a", 0), ("b", 1), ("c", 2)] ∧
    (runCalls (fun k => 100 + k) Registry.empty
      [.one "a", .many ["b", "a", "c"], .one "b"]).ssbo.keys =
        firstSeen (List.flatMap
          [BufferCall.one "a", BufferCall.many ["b", "a", "c"], BufferCall.one "b"]
          BufferCall.names) :=
  ⟨by decide, (buffer_assigns_indices (fun k => 100 + k)
    [.one "a", .many ["b", "a", "c"], .one "b"]).1⟩

/-! ## Properties of the driver loops -/

/-- The initialisation block evaluated: 125 chunks at the grid positions, no `rand()`
call, and for each chunk a randomize, a push and a remesh of the chunk just pushed. -/
theorem meshing_eq : meshing Main.start = ⟨initChunks, 0, initCalls⟩ := by
  set_option maxRecDepth 100000 in decide

theorem initChunks_length : initChunks.length = 125 := by
  simp [initChunks]

theorem meshing_chunks : (meshing Main.start).chunks.length = 125 := by
  rw [meshing_eq]; exact initChunks_length

theorem pick_eq (rand : Nat → Nat) (s : Main) (h : 0 < s.chunks.length) :
    pick rand s =
      some ⟨s.chunks, s.rands + 1, s.log ++ pickCalls (rand s.rands % s.chunks.length)⟩ := by
  have h0 : s.chunks.length ≠ 0 := by omega
  simp [pick, h0, forLoop, List.range', Main.emit, pickCalls]

theorem picks_eq (rand : Nat → Nat) (l : List Nat) :
    ∀ s : Main, 0 < s.chunks.length →
      l.foldlM (fun s _ => pick rand s) s = some ⟨s.chunks, s.rands + l.length,
        s.log ++ (List.range l.length).flatMap
          (fun i => pickCalls (rand (s.rands + i) % s.chunks.length))⟩ := by
  induction l with
  | nil => intro s _; simp
  | cons x xs ih =>
    intro s h
    rw [List.foldlM_cons, pick_eq rand s h]
    simp only [Option.bind_eq_bind, Option.some_bind]
    rw [ih ⟨s.chunks, s.rands + 1, s.log ++ pickCalls (rand s.rands % s.chunks.length)⟩ h]
    simp only [List.length_cons, Option.some.injEq, Main.mk.injEq, true_and]
    refine ⟨by omega, ?_⟩
    rw [List.range_succ_eq_map, List.flatMap_cons, List.flatMap_map, List.append_assoc]
    simp only [Nat.add_zero, Function.comp_def, Nat.succ_eq_add_one]
    congr 2
    have e : ∀ i, s.rands + 1 + i = s.rands + (i + 1) := fun i => by omega
    simp only [e]

/-- A frame that starts with at least one chunk makes 50 picks and then masks and
orders. -/
theorem frame_eq (rand : Nat → Nat) (s : Main) (h : 0 < s.chunks.length) :
    frame rand s = some ⟨s.chunks, s.rands + 50,
      s.log ++ frameCalls rand s.chunks.length s.rands⟩ := by
  have := picks_eq rand (List.range' 0 50) s h
  simp only [List.length_range'] at this
  simp only [frame, forLoopM, Nat.sub_zero, this, Main.emit, List.append_assoc,
    List.singleton_append, frameCalls]

theorem frames_eq (rand : Nat → Nat) (n : Nat) :
    ∀ s : Main, 0 < s.chunks.length →
      frames rand n s = some ⟨s.chunks, s.rands + 50 * n,
        s.log ++ (List.range n).flatMap
          (fun f => frameCalls rand s.chunks.length (s.rands + 50 * f))⟩ := by
  induction n with
  | zero => intro s _; simp [frames]
  | succ n ih =>
    intro s h
    rw [frames, frame_eq rand s h]
    simp only []
    rw [ih ⟨s.chunks, s.rands + 50, s.log ++ frameCalls rand s.chunks.length s.rands⟩ h]
    simp only [Option.some.injEq, Main.mk.injEq, true_and]
    refine ⟨by omega, ?_⟩
    rw [List.range_succ_eq_map, List.flatMap_cons, List.flatMap_map, List.append_assoc]
    simp only [Nat.mul_zero, Nat.add_zero, Function.comp_def, Nat.succ_eq_add_one]
    congr 2
    have e : ∀ f, s.rands + 50 + 50 * f = s.rands + 50 * (f + 1) := fun f => by omega
    simp only [e]

/-- The calls of the whole program up to the end of the `n`-th frame. -/
theorem program_eq (rand : Nat → Nat) (n : Nat) :
    program rand n = some ⟨initChunks, 50 * n,
      initCalls ++ (List.range n).flatMap (fun f => frameCalls rand 125 (50 * f))⟩ := by
  have h : 0 < (⟨initChunks, 0, initCalls⟩ : Main).chunks.length := by
    simp only [initChunks_length]; omega
  rw [program, meshing_eq, frames_eq rand n _ h]
  simp only [initChunks_length, Nat.zero_add]

/-- C6: every frame of the program, after any number of earlier frames, runs with 125
chunks and makes 50 picks; the `i`-th pick takes `r = rand() % chunks.size()` and calls,
in this order, `randomize` on chunk `r`, `unsection` on `faces[0]` to `faces[5]` of chunk
`r`, and `greedypool` on chunk `r`; nothing else is called before the frame's `mask` and
`order`. -/
theorem frame_protocol (rand : Nat → Nat) (n : Nat) :
    ∃ s : Main, program rand n = some s ∧ s.chunks.length = 125 ∧
      frame rand s = some ⟨s.chunks, s.rands + 50,
        s.log ++ (List.range 50).flatMap (fun i =>
          [.randomize (rand (s.rands + i) % 125),
            .unsection (rand (s.rands + i) % 125) 0,
            .unsection (rand (s.rands + i) % 125) 1,
            .unsection (rand (s.rands + i) % 125) 2,
            .unsection (rand (s.rands + i) % 125) 3,
            .unsection (rand (s.rands + i) % 125) 4,
            .unsection (rand (s.rands + i) % 125) 5,
            .greedypool (rand (s.rands + i) % 125)]) ++ [.mask, .order]⟩ := by
  refine ⟨_, program_eq rand n, initChunks_length, ?_⟩
  rw [frame_eq rand _ (by simp only [initChunks_length]; omega)]
  simp only [initChunks_length, frameCalls, pickCalls, List.append_assoc]

/-! ## Live sections stay within the configured count -/

theorem everyStep_head {σ ε : Type} {P : σ → Prop} {f : σ → ε → σ} {s : σ} {l : List ε}
    (h : everyStep P f s l) : P s := by
  cases l with
  | nil => exact h
  | cons e es => exact h.1

theorem everyStep_append {σ ε : Type} (P : σ → Prop) (f : σ → ε → σ) (l₁ l₂ : List ε) :
    ∀ s, everyStep P f s (l₁ ++ l₂) ↔
      everyStep P f s l₁ ∧ everyStep P f (l₁.foldl f s) l₂ := by
  induction l₁ with
  | nil =>
    intro s
    simp only [List.nil_append, everyStep, List.foldl_nil, iff_and_self]
    exact everyStep_head
  | cons e es ih =>
    intro s
    rw [List.cons_append]
    simp only [everyStep, List.foldl_cons]
    rw [ih, and_assoc]

theorem everyStep_last {σ ε : Type} {P : σ → Prop} {f : σ → ε → σ} {l : List ε} :
    ∀ {s}, everyStep P f s l → P (l.foldl f s) := by
  induction l with
  | nil => intro s h; exact h
  | cons e es ih => intro s h; exact ih h.2

theorem everyStep_take {σ ε : Type} {P : σ → Prop} {f : σ → ε → σ} {l : List ε} {s : σ}
    (h : everyStep P f s l) (m : Nat) : P ((l.take m).foldl f s) := by
  have h2 := h
  rw [← List.take_append_drop m l, everyStep_append] at h2
  exact everyStep_last h2.1

/-- Blocks of calls that each keep an indexed invariant and a property at every step. -/
theorem everyStep_blocks {σ ε : Type} (P : σ → Prop) (I : Nat → σ → Prop) (f : σ → ε → σ)
    (block : Nat → List ε) (s : σ) (hs : I 0 s) (n : Nat) :
    (∀ i s, i < n → I i s → everyStep P f s (block i) ∧ I (i + 1) ((block i).foldl f s)) →
    (∀ i s, I i s → P s) →
    everyStep P f s ((List.range n).flatMap block) ∧
      I n (((List.range n).flatMap block).foldl f s) := by
  induction n with
  | zero =>
    intro _ hP
    simp only [List.range_zero, List.flatMap_nil, List.foldl_nil, everyStep]
    exact ⟨hP 0 s hs, hs⟩
  | succ n ih =>
    intro hb hP
    have ih' := ih (fun i s hi => hb i s (Nat.lt_succ_of_lt hi)) hP
    rw [List.range_succ, List.flatMap_append, List.foldl_append, everyStep_append]
    simp only [List.flatMap_cons, List.flatMap_nil, List.append_nil]
    have h := hb n _ (Nat.lt_succ_self n) ih'.2
    exact ⟨⟨ih'.1, h.1⟩, h.2⟩

theorem Sections.Tidy.length_le {p : Sections} (h : p.Tidy) : p.live.length ≤ N := by
  obtain ⟨h1, h2, h3⟩ := h
  have hsub : p.live ⊆ List.range p.chunks ×ˢ List.range 6 := by
    intro x hx
    obtain ⟨a, b⟩ := x
    have := h2 _ hx
    rw [List.mem_product, List.mem_range, List.mem_range]
    exact this
  have hle := (List.subperm_of_subset h1 hsub).length_le
  rw [List.length_product, List.length_range, List.length_range] at hle
  simp only [N]
  omega

/-- Erasing the sections of the listed faces of chunk `r`, one after the other. -/
theorem erase_faces (r : Nat) (ds : List Nat) :
    ∀ l : List (Nat × Nat), l.Nodup →
      (ds.foldl (fun l d => l.erase (r, d)) l).Nodup ∧
      (ds.foldl (fun l d => l.erase (r, d)) l) ⊆ l ∧
      ∀ d ∈ ds, (r, d) ∉ ds.foldl (fun l d => l.erase (r, d)) l := by
  induction ds with
  | nil => intro l hl; simp [hl]
  | cons d ds ih =>
    intro l hl
    obtain ⟨h1, h2, h3⟩ := ih (l.erase (r, d)) (hl.erase _)
    simp only [List.foldl_cons, List.mem_cons]
    refine ⟨h1, fun x hx => List.erase_subset _ _ (h2 hx), ?_⟩
    rintro d' (rfl | hd')
    · exact fun hm => hl.not_mem_erase (h2 hm)
    · exact h3 d' hd'

theorem tidy_greedypool (created : Nat → List Nat)
    (hc : ∀ n, (created n).Nodup ∧ ∀ d ∈ created n, d < 6) (p : Sections) (r : Nat)
    (hp : p.Tidy) (hr : r < p.chunks) (hfree : ∀ d, d < 6 → (r, d) ∉ p.live) :
    (p.apply created (.greedypool r)).Tidy := by
  obtain ⟨h1, h2, h3⟩ := hp
  obtain ⟨c1, c2⟩ := hc p.meshes
  refine ⟨?_, ?_, h3⟩
  · simp only [Sections.apply]
    refine List.Nodup.append h1 ?_ ?_
    · exact c1.map (fun a b hab => by simpa using hab)
    · intro x hx hx2
      obtain ⟨d, hd, rfl⟩ := List.mem_map.1 hx2
      exact hfree d (c2 d hd) hx
  · intro x hx
    simp only [Sections.apply, List.mem_append, List.mem_map] at hx
    rcases hx with hx | ⟨d, hd, rfl⟩
    · exact h2 x hx
    · exact ⟨hr, c2 d hd⟩

/-- One pick keeps the pool tidy at every step. -/
theorem tidy_pick (created : Nat → List Nat)
    (hc : ∀ n, (created n).Nodup ∧ ∀ d ∈ created n, d < 6) (p : Sections) (r : Nat)
    (hp : p.Tidy) (hr : r < p.chunks) :
    everyStep Sections.Tidy (Sections.apply created) p (pickCalls r) ∧
      ((pickCalls r).foldl (Sections.apply created) p).chunks = p.chunks := by
  have hp' := hp
  obtain ⟨h1, h2, h3⟩ := hp
  have tidy_sub : ∀ l : List (Nat × Nat), l.Nodup → l ⊆ p.live →
      Sections.Tidy ⟨p.chunks, l, p.meshes⟩ :=
    fun l hl hs => ⟨hl, fun x hx => h2 x (hs hx), h3⟩
  have e := fun ds => erase_faces r ds p.live h1
  have t1 := tidy_sub _ (e [0]).1 (e [0]).2.1
  have t2 := tidy_sub _ (e [0, 1]).1 (e [0, 1]).2.1
  have t3 := tidy_sub _ (e [0, 1, 2]).1 (e [0, 1, 2]).2.1
  have t4 := tidy_sub _ (e [0, 1, 2, 3]).1 (e [0, 1, 2, 3]).2.1
  have t5 := tidy_sub _ (e [0, 1, 2, 3, 4]).1 (e [0, 1, 2, 3, 4]).2.1
  have t6 := tidy_sub _ (e [0, 1, 2, 3, 4, 5]).1 (e [0, 1, 2, 3, 4, 5]).2.1
  have hfree : ∀ d, d < 6 →
      (r, d) ∉ [0, 1, 2, 3, 4, 5].foldl (fun l d => l.erase (r, d)) p.live := by
    intro d hd
    refine (e [0, 1, 2, 3, 4, 5]).2.2 d ?_
    simp only [List.mem_cons, List.mem_singleton]
    omega
  have t7 := tidy_greedypool created hc _ r t6 hr hfree
  simp only [List.foldl_cons, List.foldl_nil] at t1 t2 t3 t4 t5 t6 t7
  simp only [pickCalls, everyStep, List.foldl_cons, List.foldl_nil, Sections.apply]
  exact ⟨⟨hp', hp', t1, t2, t3, t4, t5, t6, t7⟩, trivial⟩

/-- Meshing one new chunk keeps the pool tidy at every step. -/
theorem tidy_meshChunk (created : Nat → List Nat)
    (hc : ∀ n, (created n).Nodup ∧ ∀ d ∈ created n, d < 6) (p : Sections) (c : Nat)
    (hp : p.Tidy) (hcount : p.chunks = c) (hlt : c < 125) :
    everyStep Sections.Tidy (Sections.apply created) p
        [.randomizeLocal, .pushBack, .greedypool c] ∧
      ([Event.randomizeLocal, .pushBack, .greedypool c].foldl
        (Sections.apply created) p).Tidy ∧
      ([Event.randomizeLocal, .pushBack, .greedypool c].foldl
        (Sections.apply created) p).chunks = c + 1 := by
  have hp' := hp
  obtain ⟨h1, h2, h3⟩ := hp
  have t1 : Sections.Tidy ⟨p.chunks + 1, p.live, p.meshes⟩ :=
    ⟨h1, fun x hx => ⟨Nat.lt_succ_of_lt (h2 x hx).1, (h2 x hx).2⟩, by simp only []; omega⟩
  have t2 := tidy_greedypool created hc _ c t1 (by simp only []; omega)
    (fun d _ hm => by have := (h2 _ hm).1; simp only [] at this; omega)
  simp only [everyStep, List.foldl_cons, List.foldl_nil, Sections.apply] at t2 ⊢
  exact ⟨⟨hp', hp', t1, t2⟩, t2, hcount ▸ rfl⟩

theorem tidy_mask_order (created : Nat → List Nat) (q : Sections) (hq : q.Tidy) :
    everyStep Sections.Tidy (Sections.apply created) q [.mask, .order] ∧
      [Event.mask, .order].foldl (Sections.apply created) q = q :=
  ⟨⟨hq, hq, hq⟩, rfl⟩

theorem tidy_mask_order_update (created : Nat → List Nat) (q : Sections) (hq : q.Tidy) :
    everyStep Sections.Tidy (Sections.apply created) q [.mask, .order, .update] ∧
      [Event.mask, .order, .update].foldl (Sections.apply created) q = q :=
  ⟨⟨hq, hq, hq, hq⟩, rfl⟩

/-- One frame keeps the pool tidy at every step. -/
theorem tidy_frame (rand : Nat → Nat) (created : Nat → List Nat)
    (hc : ∀ n, (created n).Nodup ∧ ∀ d ∈ created n, d < 6) (base : Nat) (p : Sections)
    (hp : p.Tidy ∧ p.chunks = 125) :
    everyStep Sections.Tidy (Sections.apply created) p (frameCalls rand 125 base) ∧
      (((frameCalls rand 125 base).foldl (Sections.apply created) p).Tidy ∧
        ((frameCalls rand 125 base).foldl (Sections.apply created) p).chunks = 125) := by
  have hpicks := everyStep_blocks Sections.Tidy (fun _ q => q.Tidy ∧ q.chunks = 125)
    (Sections.apply created) (fun i => pickCalls (rand (base + i) % 125)) p hp 50
    (fun i q _ hq => by
      have hr : rand (base + i) % 125 < q.chunks := by rw [hq.2]; exact Nat.mod_lt _ (by omega)
      have h := tidy_pick created hc q _ hq.1 hr
      exact ⟨h.1, everyStep_last h.1, h.2.trans hq.2⟩)
    (fun _ q hq => hq.1)
  have htail := tidy_mask_order created _ hpicks.2.1
  rw [frameCalls, everyStep_append, List.foldl_append, htail.2]
  exact ⟨⟨hpicks.1, htail.1⟩, hpicks.2⟩

/-- The whole program keeps the pool tidy at every step. -/
theorem tidy_program (rand : Nat → Nat) (created : Nat → List Nat)
    (hc : ∀ n, (created n).Nodup ∧ ∀ d ∈ created n, d < 6) (n : Nat) :
    everyStep Sections.Tidy (Sections.apply created) Sections.start
      (initCalls ++ (List.range n).flatMap (fun f => frameCalls rand 125 (50 * f))) := by
  have h0 : Sections.start.Tidy ∧ Sections.start.chunks = 0 :=
    ⟨⟨List.nodup_nil, fun x hx => absurd hx (List.not_mem_nil x), Nat.zero_le _⟩, rfl⟩
  have hinit := everyStep_blocks Sections.Tidy (fun c q => q.Tidy ∧ q.chunks = c)
    (Sections.apply created) (fun c => [.randomizeLocal, .pushBack, .greedypool c])
    Sections.start h0 125
    (fun c q hlt hq => by
      have h := tidy_meshChunk created hc q c hq.1 hq.2 hlt
      exact ⟨h.1, h.2.1, h.2.2⟩)
    (fun _ q hq => hq.1)
  have hframes := everyStep_blocks Sections.Tidy (fun _ q => q.Tidy ∧ q.chunks = 125)
    (Sections.apply created) (fun f => frameCalls rand 125 (50 * f)) _ hinit.2 n
    (fun f q _ hq => by
      have h := tidy_frame rand created hc (50 * f) q hq
      exact ⟨h.1, h.2⟩)
    (fun _ q hq => hq.1)
  have htail := tidy_mask_order_update created _ hinit.2.1
  rw [initCalls, everyStep_append, everyStep_append, List.foldl_append, htail.2]
  exact ⟨⟨hinit.1, htail.1⟩, hframes.1⟩

theorem mem_frameCalls (rand : Nat → Nat) (base : Nat) (e : Event)
    (h : e ∈ frameCalls rand 125 base) :
    e = .mask ∨ e = .order ∨ ∃ r, r < 125 ∧ e ∈ pickCalls r := by
  rcases List.mem_append.1 h with h | h
  · obtain ⟨i, _, hi⟩ := List.mem_flatMap.1 h
    exact Or.inr (Or.inr ⟨_, Nat.mod_lt _ (by omega), hi⟩)
  · simp only [List.mem_cons, List.mem_singleton, List.not_mem_nil, or_false] at h
    rcases h with h | h
    · exact Or.inl h
    · exact Or.inr (Or.inl h)

/-- Every chunk index in a call of the program is below 125 and every face below 6. -/
theorem program_indices (rand : Nat → Nat) (n : Nat) (e : Event)
    (h : e ∈ initCalls ++ (List.range n).flatMap (fun f => frameCalls rand 125 (50 * f))) :
    (∀ c, e = .randomize c → c < 125) ∧ (∀ c, e = .greedypool c → c < 125) ∧
      (∀ c d, e = .unsection c d → c < 125 ∧ d < 6) := by
  rw [initCalls] at h
  rcases List.mem_append.1 h with h | h
  · rcases List.mem_append.1 h with h | h
    · obtain ⟨c, hc, h⟩ := List.mem_flatMap.1 h
      rw [List.mem_range] at hc
      simp only [List.mem_cons, List.mem_singleton, List.not_mem_nil, or_false] at h
      rcases h with h | h | h <;> subst h <;> simp
      exact hc
    · simp only [List.mem_cons, List.mem_singleton, List.not_mem_nil, or_false] at h
      rcases h with h | h | h <;> subst h <;> simp
  · obtain ⟨f, _, h⟩ := List.mem_flatMap.1 h
    rcases mem_frameCalls rand _ e h with h | h | ⟨r, hr, h⟩
    · subst h; simp
    · subst h; simp
    · simp only [pickCalls, List.mem_cons, List.mem_singleton, List.not_mem_nil, or_false] at h
      rcases h with h | h | h | h | h | h | h | h <;> subst h <;> simp <;> exact hr

/-- C7: `N` is 750, six times the 125 chunks the initialisation creates. If every
remesh creates at most one section per face direction (faces 0 to 5), then after every
call of the initialisation and of any number of frames the pool holds at most `N` live
sections. The program never fails on `rand() % chunks.size()`, the vector has 125 chunks
at the end of every frame, and every chunk index used in a call is below 125. -/
theorem sections_within_capacity (rand : Nat → Nat) (created : Nat → List Nat)
    (hc : ∀ n, (created n).Nodup ∧ ∀ d ∈ created n, d < 6) (n m : Nat) :
    N = 750 ∧ N = 6 * (meshing Main.start).chunks.length ∧
    ∃ s : Main, program rand n = some s ∧ s.chunks.length = 125 ∧
      (Sections.after created (s.log.take m)).live.length ≤ N ∧
      (∀ c, Event.randomize c ∈ s.log → c < s.chunks.length) ∧
      (∀ c, Event.greedypool c ∈ s.log → c < s.chunks.length) ∧
      (∀ c d, Event.unsection c d ∈ s.log → c < s.chunks.length ∧ d < 6) := by
  refine ⟨rfl, by rw [meshing_chunks]; rfl, _, program_eq rand n, initChunks_length,
    ?_, ?_, ?_, ?_⟩
  · exact (everyStep_take (tidy_program rand created hc n) m).length_le
  · intro c h
    simp only [initChunks_length]
    exact (program_indices rand n _ h).1 c rfl
  · intro c h
    simp only [initChunks_length]
    exact (program_indices rand n _ h).2.1 c rfl
  · intro c d h
    simp only [initChunks_length]
    exact (program_indices rand n _ h).2.2 c d rfl

/-- C7, with every remesh creating all six sections, `rand()` counting upwards, after
two frames and 1000 calls. -/
theorem sections_within_capacity_witness :
    (∀ n : Nat, (allFaces n).Nodup ∧ ∀ d ∈ allFaces n, d < 6) ∧
    ∃ s : Main, program (fun i => i) 2 = some s ∧ s.chunks.length = 125 ∧
      (Sections.after allFaces (s.log.take 1000)).live.length ≤ N :=
  have hc : ∀ n : Nat, (allFaces n).Nodup ∧ ∀ d ∈ allFaces n, d < 6 :=
    fun _ => ⟨(by decide : [0, 1, 2, 3, 4, 5].Nodup), (by decide : ∀ d ∈ [0, 1, 2, 3, 4, 5], d < 6)⟩
  have h := sections_within_capacity (fun i => i) allFaces hc 2 1000
  ⟨hc, h.2.2.elim fun s hs => ⟨s, hs.1, hs.2.1, hs.2.2.1⟩⟩

/-! ## The allocator invariant -/

/-- Scenario A of the spec: capacities 10, 20, 15 in a 100-slot buffer. -/
theorem scenarioA_allocate :
    (Pool.empty 100).run id [.update 1 10, .update 2 20, .update 3 15] =
      ⟨[⟨1, 0, 10, 10⟩, ⟨2, 10, 20, 20⟩, ⟨3, 30, 15, 15⟩], [(45, 100)]⟩ := by decide

/-- Scenario A of the spec, continued: releasing the middle section leaves two free
ranges, and a 20-slot section then takes the hole by first fit. -/
theorem scenarioA_release :
    ((Pool.empty 100).run id [.update 1 10, .update 2 20, .update 3 15, .unsection 2]).free =
        [(10, 30), (45, 100)] ∧
      (Pool.empty 100).run id
          [.update 1 10, .update 2 20, .update 3 15, .unsection 2, .update 4 20] =
        ⟨[⟨1, 0, 10, 10⟩, ⟨3, 30, 15, 15⟩, ⟨4, 10, 20, 20⟩], [(45, 100)]⟩ := by decide

/-- Releasing everything coalesces the free list back into one range. -/
theorem scenarioA_release_all :
    (Pool.empty 100).run id [.update 1 10, .update 2 20, .update 3 15, .unsection 2,
      .unsection 1, .unsection 3] = ⟨[], [(0, 100)]⟩ := by decide

theorem coalesce_lower (L : Nat) (free : List (Nat × Nat)) :
    ∀ o e' : Nat, (∀ r ∈ free, L < r.1) → L < o → ∀ r ∈ coalesce o e' free, L < r.1 := by
  induction free with
  | nil =>
    intro o e' _ ho r hr
    simp only [coalesce, List.mem_singleton] at hr
    subst hr
    exact ho
  | cons x rest ih =>
    obtain ⟨s, e⟩ := x
    intro o e' hfree ho r hr
    have hs : L < s := hfree (s, e) (List.mem_cons_self _ _)
    have hrest : ∀ r ∈ rest, L < r.1 := fun r hr => hfree r (List.mem_cons_of_mem _ hr)
    simp only [coalesce] at hr
    split_ifs at hr with h1 h2
    · rcases List.mem_cons.1 hr with rfl | hr
      · exact ho
      · exact hfree r hr
    · rcases List.mem_cons.1 hr with rfl | hr
      · exact hs
      · exact ih o e' hrest ho r hr
    · exact ih (min o s) (max e' e) hrest (by omega) r hr

theorem coalesce_sorted (free : List (Nat × Nat)) :
    ∀ o e' : Nat, o ≤ e' → FreeSorted free → FreeSorted (coalesce o e' free) := by
  induction free with
  | nil =>
    intro o e' h _
    refine ⟨?_, ?_⟩
    · intro r hr
      simp only [coalesce, List.mem_singleton] at hr
      subst hr
      exact h
    · simp [coalesce]
  | cons x rest ih =>
    obtain ⟨s, e⟩ := x
    intro o e' h hf
    obtain ⟨hwf, hpw⟩ := hf
    have hse : s ≤ e := hwf (s, e) (List.mem_cons_self _ _)
    have hwf' : ∀ r ∈ rest, r.1 ≤ r.2 := fun r hr => hwf r (List.mem_cons_of_mem _ hr)
    rw [List.pairwise_cons] at hpw
    have hrest : FreeSorted rest := ⟨hwf', hpw.2⟩
    simp only [coalesce]
    split_ifs with h1 h2
    · refine ⟨?_, ?_⟩
      · intro r hr
        rcases List.mem_cons.1 hr with rfl | hr
        · exact h
        · exact hwf r hr
      · refine List.pairwise_cons.2 ⟨?_, List.pairwise_cons.2 hpw⟩
        intro r hr
        rcases List.mem_cons.1 hr with rfl | hr
        · exact h1
        · have := hpw.1 r hr
          simp only [] at this ⊢
          omega
    · have ih' := ih o e' h hrest
      refine ⟨?_, ?_⟩
      · intro r hr
        rcases List.mem_cons.1 hr with rfl | hr
        · exact hse
        · exact ih'.1 r hr
      · exact List.pairwise_cons.2 ⟨coalesce_lower e rest o e' hpw.1 h2, ih'.2⟩
    · exact ih (min o s) (max e' e) (by omega) hrest

theorem coalesce_covers (free : List (Nat × Nat)) (i : Nat) :
    ∀ o e' : Nat, freeCovers (coalesce o e' free) i → (o ≤ i ∧ i < e') ∨ freeCovers free i := by
  induction free with
  | nil =>
    intro o e' h
    obtain ⟨r, hr, h1, h2⟩ := h
    simp only [coalesce, List.mem_singleton] at hr
    subst hr
    exact Or.inl ⟨h1, h2⟩
  | cons x rest ih =>
    obtain ⟨s, e⟩ := x
    intro o e' h
    simp only [coalesce] at h
    split_ifs at h with h1 h2
    · obtain ⟨r, hr, h3, h4⟩ := h
      rcases List.mem_cons.1 hr with rfl | hr
      · exact Or.inl ⟨h3, h4⟩
      · exact Or.inr ⟨r, hr, h3, h4⟩
    · obtain ⟨r, hr, h3, h4⟩ := h
      rcases List.mem_cons.1 hr with rfl | hr
      · exact Or.inr ⟨_, List.mem_cons_self _ _, h3, h4⟩
      · rcases ih o e' ⟨r, hr, h3, h4⟩ with h5 | ⟨r', hr', h5⟩
        · exact Or.inl h5
        · exact Or.inr ⟨r', List.mem_cons_of_mem _ hr', h5⟩
    · rcases ih (min o s) (max e' e) h with ⟨h3, h4⟩ | ⟨r', hr', h5⟩
      · by_cases hin : o ≤ i ∧ i < e'
        · exact Or.inl hin
        · refine Or.inr ⟨(s, e), List.mem_cons_self _ _, ?_, ?_⟩ <;> simp only [] <;> omega
      · exact Or.inr ⟨r', List.mem_cons_of_mem _ hr', h5⟩

/-- What first fit returns: the slots taken lie in one free range of the old list, the
new list is sorted, starts no lower than the old one, and covers only slots the old list
covered, none of them taken. -/
theorem firstFit_spec (need : Nat) (free : List (Nat × Nat)) :
    ∀ (o : Nat) (free' : List (Nat × Nat)), firstFit need free = some (o, free') →
      FreeSorted free →
      (∃ r ∈ free, r.1 ≤ o ∧ o + need ≤ r.2) ∧
      FreeSorted free' ∧
      (∀ r ∈ free', ∃ r₀ ∈ free, r₀.1 ≤ r.1) ∧
      (∀ i, freeCovers free' i → freeCovers free i ∧ ¬ (o ≤ i ∧ i < o + need)) := by
  induction free with
  | nil => intro o free' h; simp [firstFit] at h
  | cons x rest ih =>
    obtain ⟨s, e⟩ := x
    intro o free' h hf
    obtain ⟨hwf, hpw⟩ := hf
    have hse : s ≤ e := hwf (s, e) (List.mem_cons_self _ _)
    have hwf' : ∀ r ∈ rest, r.1 ≤ r.2 := fun r hr => hwf r (List.mem_cons_of_mem _ hr)
    rw [List.pairwise_cons] at hpw
    have hrest : FreeSorted rest := ⟨hwf', hpw.2⟩
    simp only [firstFit] at h
    split_ifs at h with h1 h2
    · simp only [Option.some.injEq, Prod.mk.injEq] at h
      obtain ⟨rfl, rfl⟩ := h
      refine ⟨⟨(s, e), List.mem_cons_self _ _, le_refl _, h1⟩, ⟨?_, ?_⟩, ?_, ?_⟩
      · intro r hr
        rcases List.mem_cons.1 hr with rfl | hr
        · exact le_of_lt h2
        · exact hwf' r hr
      · exact List.pairwise_cons.2 ⟨hpw.1, hpw.2⟩
      · intro r hr
        rcases List.mem_cons.1 hr with rfl | hr
        · exact ⟨(s, e), List.mem_cons_self _ _, Nat.le_add_right _ _⟩
        · exact ⟨r, List.mem_cons_of_mem _ hr, le_refl _⟩
      · rintro i ⟨r, hr, h3, h4⟩
        rcases List.mem_cons.1 hr with rfl | hr
        · simp only [] at h3 h4
          exact ⟨⟨(s, e), List.mem_cons_self _ _, by simp only []; omega, h4⟩, by omega⟩
        · have := hpw.1 r hr
          exact ⟨⟨r, List.mem_cons_of_mem _ hr, h3, h4⟩, by simp only [] at this; omega⟩
    · simp only [Option.some.injEq, Prod.mk.injEq] at h
      obtain ⟨rfl, rfl⟩ := h
      refine ⟨⟨(s, e), List.mem_cons_self _ _, le_refl _, h1⟩, hrest, ?_, ?_⟩
      · intro r hr
        exact ⟨r, List.mem_cons_of_mem _ hr, le_refl _⟩
      · rintro i ⟨r, hr, h3, h4⟩
        have := hpw.1 r hr
        exact ⟨⟨r, List.mem_cons_of_mem _ hr, h3, h4⟩, by simp only [] at this; omega⟩
    · cases hfit : firstFit need rest with
      | none => simp [hfit] at h
      | some res =>
        obtain ⟨o', rest'⟩ := res
        simp only [hfit, Option.some.injEq, Prod.mk.injEq] at h
        obtain ⟨rfl, rfl⟩ := h
        obtain ⟨⟨r₀, hr₀, h3, h4⟩, hs', hlow, hcov⟩ := ih o' rest' hfit hrest
        have hlow' : ∀ r ∈ rest', e < r.1 := by
          intro r hr
          obtain ⟨r₁, hr₁, h5⟩ := hlow r hr
          have := hpw.1 r₁ hr₁
          simp only [] at this
          omega
        refine ⟨⟨r₀, List.mem_cons_of_mem _ hr₀, h3, h4⟩, ⟨?_, ?_⟩, ?_, ?_⟩
        · intro r hr
          rcases List.mem_cons.1 hr with rfl | hr
          · exact hse
          · exact hs'.1 r hr
        · exact List.pairwise_cons.2 ⟨hlow', hs'.2⟩
        · intro r hr
          rcases List.mem_cons.1 hr with rfl | hr
          · exact ⟨(s, e), List.mem_cons_self _ _, le_refl _⟩
          · obtain ⟨r₁, hr₁, h5⟩ := hlow r hr
            exact ⟨r₁, List.mem_cons_of_mem _ hr₁, h5⟩
        · rintro i ⟨r, hr, h5, h6⟩
          rcases List.mem_cons.1 hr with rfl | hr
          · have := hpw.1 r₀ hr₀
            simp only [] at this h5 h6
            exact ⟨⟨(s, e), List.mem_cons_self _ _, h5, h6⟩, by omega⟩
          · obtain ⟨⟨r₁, hr₁, h7⟩, h8⟩ := hcov i ⟨r, hr, h5, h6⟩
            exact ⟨⟨r₁, List.mem_cons_of_mem _ hr₁, h7⟩, h8⟩

theorem Pool.record_some {p : Pool} {id : Nat} {a : Allocation} (h : p.record id = some a) :
    a ∈ p.live ∧ a.id = id := by
  simp only [Pool.record] at h
  exact ⟨List.mem_of_find?_eq_some h, by simpa using List.find?_some h⟩

theorem Pool.record_none {p : Pool} {id : Nat} (h : p.record id = none) :
    id ∉ p.live.map Allocation.id := by
  simp only [Pool.record, List.find?_eq_none] at h
  intro hm
  obtain ⟨a, ha, rfl⟩ := List.mem_map.1 hm
  exact h a ha (by simp)

theorem Pool.empty_sound (size : Nat) : (Pool.empty size).Sound := by
  refine ⟨?_, ?_, ⟨?_, ?_⟩, ?_⟩ <;> simp [Pool.empty]

theorem Pool.unsection_sound (p : Pool) (id : Nat) (hp : p.Sound) :
    (p.unsection id).Sound ∧ id ∉ (p.unsection id).live.map Allocation.id := by
  unfold Pool.unsection
  cases hrec : p.record id with
  | none => exact ⟨hp, Pool.record_none hrec⟩
  | some a =>
    obtain ⟨ha, haid⟩ := Pool.record_some hrec
    simp only []
    have hsub : ∀ b ∈ p.live.filter (fun b => b.id != id), b ∈ p.live ∧ b.id ≠ id := by
      intro b hb
      rw [List.mem_filter] at hb
      exact ⟨hb.1, by simpa using hb.2⟩
    refine ⟨⟨?_, ?_, ?_, ?_⟩, ?_⟩
    · exact hp.ids.sublist ((List.filter_sublist _).map _)
    · intro b hb c hc
      exact hp.disjoint b (hsub b hb).1 c (hsub c hc).1
    · exact coalesce_sorted _ _ _ (Nat.le_add_right _ _) hp.free
    · intro b hb i hbi hfree
      obtain ⟨hb1, hb2⟩ := hsub b hb
      rcases coalesce_covers _ i _ _ hfree with h | h
      · exact hp.disjoint b hb1 a ha (by rw [haid]; exact hb2) i ⟨hbi, h⟩
      · exact hp.apart b hb1 i hbi h
    · intro hm
      obtain ⟨b, hb, hbid⟩ := List.mem_map.1 hm
      exact (hsub b hb).2 hbid

theorem Pool.place_sound (sizing : Nat → Nat) (p : Pool) (id n : Nat) (hp : p.Sound)
    (hid : id ∉ p.live.map Allocation.id) (q : Pool) (h : p.place sizing id n = some q) :
    q.Sound := by
  unfold Pool.place at h
  cases hfit : firstFit (sizing n) p.free with
  | none => simp [hfit] at h
  | some res =>
    obtain ⟨o, free'⟩ := res
    simp only [hfit, Option.some.injEq] at h
    subst h
    obtain ⟨⟨r₀, hr₀, h1, h2⟩, hs', _, hcov⟩ := firstFit_spec _ _ o free' hfit hp.free
    have hnew : ∀ i, (⟨id, o, sizing n, n⟩ : Allocation).covers i → freeCovers p.free i :=
      fun i hi => ⟨r₀, hr₀, by have := hi.1; simp only [] at this; omega,
        by have := hi.2; simp only [] at this; omega⟩
    have hmem : ∀ b, b ∈ p.live ++ [(⟨id, o, sizing n, n⟩ : Allocation)] →
        b ∈ p.live ∨ b = ⟨id, o, sizing n, n⟩ := by
      intro b hb
      simpa using hb
    refine ⟨?_, ?_, hs', ?_⟩
    · simp only [List.map_append, List.map_cons, List.map_nil]
      exact List.Nodup.append hp.ids (List.nodup_singleton _)
        (by intro x hx hx2; rw [List.mem_singleton] at hx2; subst hx2; exact hid hx)
    · intro b hb c hc hne i hi
      rcases hmem b hb with hb | rfl <;> rcases hmem c hc with hc | rfl
      · exact hp.disjoint b hb c hc hne i hi
      · exact hp.apart b hb i hi.1 (hnew i hi.2)
      · exact hp.apart c hc i hi.2 (hnew i hi.1)
      · exact hne rfl
    · intro b hb i hbi hfree
      obtain ⟨hold, hout⟩ := hcov i hfree
      rcases hmem b hb with hb | rfl
      · exact hp.apart b hb i hbi hold
      · exact hout hbi

theorem Pool.update_sound (sizing : Nat → Nat) (p : Pool) (id n : Nat) (hp : p.Sound)
    (q : Pool) (h : p.update sizing id n = some q) : q.Sound := by
  unfold Pool.update at h
  cases hrec : p.record id with
  | none =>
    simp only [hrec] at h
    exact Pool.place_sound sizing p id n hp (Pool.record_none hrec) q h
  | some a =>
    simp only [hrec] at h
    split_ifs at h with hfit
    · simp only [Option.some.injEq] at h
      subst h
      have hmem : ∀ b ∈ p.live.map (fun b => if b.id = id then { b with used := n } else b),
          ∃ b₀ ∈ p.live, b.id = b₀.id ∧ b.offset = b₀.offset ∧ b.capacity = b₀.capacity := by
        intro b hb
        obtain ⟨b₀, hb₀, rfl⟩ := List.mem_map.1 hb
        refine ⟨b₀, hb₀, ?_⟩
        split_ifs <;> simp
      refine ⟨?_, ?_, hp.free, ?_⟩
      · have e : (p.live.map (fun b => if b.id = id then { b with used := n } else b)).map
            Allocation.id = p.live.map Allocation.id := by
          rw [List.map_map]
          refine List.map_congr_left (fun b _ => ?_)
          simp only [Function.comp]
          split_ifs <;> rfl
        simp only []
        rw [e]
        exact hp.ids
      · intro b hb c hc hne i hi
        obtain ⟨b₀, hb₀, h1, h2, h3⟩ := hmem b hb
        obtain ⟨c₀, hc₀, h4, h5, h6⟩ := hmem c hc
        refine hp.disjoint b₀ hb₀ c₀ hc₀ (by rw [← h1, ← h4]; exact hne) i ?_
        simp only [Allocation.covers] at hi ⊢
        rw [← h2, ← h3, ← h5, ← h6]
        exact hi
      · intro b hb i hbi
        obtain ⟨b₀, hb₀, _, h2, h3⟩ := hmem b hb
        refine hp.apart b₀ hb₀ i ?_
        simp only [Allocation.covers] at hbi ⊢
        rw [← h2, ← h3]
        exact hbi
    · obtain ⟨hs, hid⟩ := Pool.unsection_sound p id hp
      exact Pool.place_sound sizing _ id n hs hid q h

theorem Pool.run_sound (sizing : Nat → Nat) (calls : List PoolCall) :
    ∀ p : Pool, p.Sound → (p.run sizing calls).Sound := by
  induction calls with
  | nil => intro p hp; exact hp
  | cons c cs ih =>
    intro p hp
    simp only [Pool.run, List.foldl_cons] at ih ⊢
    refine ih _ ?_
    cases c with
    | update id n =>
      simp only [Pool.call]
      cases hu : p.update sizing id n with
      | none => exact hp
      | some q => exact Pool.update_sound sizing p id n hp q hu
    | unsection id => exact (Pool.unsection_sound p id hp).1

/-- C5: starting from an empty pool, at every point `k` of every sequence of `update`
and `unsection` calls, whatever the buffer size and the rule sizing the reserved
capacity, the live sections have distinct ids, the allocation ranges of distinct live
sections share no slot, and the free list is ordered with at least one slot between
consecutive free ranges, so its ranges are pairwise disjoint and never adjacent. -/
theorem allocator_disjoint (sizing : Nat → Nat) (size : Nat) (calls : List PoolCall)
    (k : Nat) :
    (((Pool.empty size).run sizing (calls.take k)).live.map Allocation.id).Nodup ∧
    (∀ a ∈ ((Pool.empty size).run sizing (calls.take k)).live,
      ∀ b ∈ ((Pool.empty size).run sizing (calls.take k)).live, a.id ≠ b.id →
        ∀ i, ¬ (a.offset ≤ i ∧ i < a.offset + a.capacity ∧
          b.offset ≤ i ∧ i < b.offset + b.capacity)) ∧
    ((Pool.empty size).run sizing (calls.take k)).free.Pairwise (fun r₁ r₂ => r₁.2 < r₂.1) ∧
    (∀ r ∈ ((Pool.empty size).run sizing (calls.take k)).free, r.1 ≤ r.2) := by
  have h := Pool.run_sound sizing (calls.take k) _ (Pool.empty_sound size)
  refine ⟨h.ids, ?_, h.free.2, h.free.1⟩
  intro a ha b hb hne i hi
  exact h.disjoint a ha b hb hne i ⟨⟨hi.1, hi.2.1⟩, hi.2.2⟩

/-- C5, on a pool with quota 10 over 30 slots: a refused allocation, an in-place
update and a refused reallocation leave the two placed sections where they were. -/
theorem allocator_disjoint_witness :
    (Pool.empty 30).run (quotaRule 10)
        [.update 1 3, .update 2 20, .update 3 15, .update 1 9, .update 1 12] =
      ⟨[⟨1, 0, 10, 9⟩, ⟨2, 10, 20, 20⟩], []⟩ ∧
    (((Pool.empty 30).run (quotaRule 10)
        (List.take 5 [.update 1 3, .update 2 20, .update 3 15, .update 1 9,
          .update 1 12])).live.map Allocation.id).Nodup :=
  ⟨by decide, (allocator_disjoint (quotaRule 10) 30
    [.update 1 3, .update 2 20, .update 3 15, .update 1 9, .update 1 12] 5).1⟩

end TinyEngine
